import Mathlib

/-!
# fixcrd: rewriting API groups in a stream of YAML documents

A shallow embedding of `main.go`.  The decoded YAML value (`interface{}` as
produced by `yaml.v3`) is the type `Node`; the methods of `fixer` and the
`find*Child` helpers are Lean functions of the same names.

Conventions of the embedding.

* Go's `nil` interface value is `Node.null`; a YAML `null` decodes to it.
* A `map[string]interface{}` is an association list of entries.  Go maps have
  unique keys; `findChild` returns the first entry with the key and `mapSet`
  overwrites that same entry, or adds one when the key is absent.
* A `map[string]interface{}` or `[]interface{}` result that may be `nil` is an
  `Option`.
* In-place mutation of a child container is a functional update of the slot
  of the parent that holds it (`setChild`): decoded documents are trees.
* Go strings are compared, measured and sliced by bytes.  Here a string is a
  Lean `String` and `HasPrefix`, `HasSuffix`, `len` and the slice expressions
  act on its list of characters.
* A run-time panic is the result `none` of `step`, `Outcome.panic` of `run`.
* `run` is the loop of `(*fixer).run` seen document by document; `runStream`
  is the same loop together with the output stream, in which an `Encode`
  that fails may have left a part of its document (`run_eq_runStream`).
-/

namespace Fixcrd

/-- The dynamic value behind `interface{}` after `yaml.v3` decoding. -/
inductive Node where
  | null
  | str (s : String)
  | bool (b : Bool)
  | int (i : Int)
  | float (bits : Nat)
  | seq (items : List Node)
  | map (entries : List (String × Node))
  | anymap (entries : List (Node × Node))

/-- The Go `error` interface value, when not `nil`. -/
abbrev GoError := String

/-- The two configuration strings of `type fixer struct`. -/
structure Fixer where
  fromApiGroup : String
  toApiGroup : String

/-! ## String primitives -/

/-- Go `len(s)`. -/
def len (s : String) : Nat := s.data.length

/-- Go `strings.HasPrefix(s, pre)`. -/
def hasPrefix (s pre : String) : Bool :=
  decide (len pre ≤ len s) && decide (s.data.take (len pre) = pre.data)

/-- Go `strings.HasSuffix(s, suf)`. -/
def hasSuffix (s suf : String) : Bool :=
  decide (len suf ≤ len s) && decide (s.data.drop (len s - len suf) = suf.data)

/-- Go `s[n:]`; `none` is the slice-bounds panic. -/
def sliceFrom (s : String) (n : Nat) : Option String :=
  if n ≤ len s then some ⟨s.data.drop n⟩ else none

/-- Go `s[0:n]` where `n` is a difference of two lengths computed in `int`;
`none` is the slice-bounds panic. -/
def sliceTo (s : String) (n : Int) : Option String :=
  if 0 ≤ n ∧ n ≤ (len s : Int) then some ⟨s.data.take n.toNat⟩ else none

/-! ## Map primitives -/

/-- Go `m[k] = v` on a `map[string]interface{}`. -/
def mapSet : List (String × Node) → String → Node → List (String × Node)
  | [], k, v => [(k, v)]
  | (k', v') :: rest, k, v =>
    if k' = k then (k, v) :: rest else (k', v') :: mapSet rest k v

/-- Writing through a reference: the slot `name` of the mapping `node` now
holds `v`.  Used for the containers that the source mutates in place. -/
def setChild (node : Node) (name : String) (v : Node) : Node :=
  match node with
  | .map o => .map (mapSet o name v)
  | other => other

/-! ## The lookup helpers -/

/-- Go `findChild`. -/
def findChild (node : Node) (name : String) : Node :=
  match node with
  | .map o =>
    match o.find? (fun kv => decide (kv.1 = name)) with
    | some kv => kv.2
    | none => .null
  | _ => .null

/-- Go `findTextChild`. -/
def findTextChild (node : Node) (name : String) : String :=
  match findChild node name with
  | .str s => s
  | _ => ""

/-- Go `findSequenceChild`. -/
def findSequenceChild (node : Node) (name : String) : Option (List Node) :=
  match findChild node name with
  | .seq a => some a
  | _ => none

/-- Go `findMapChild`. -/
def findMapChild (node : Node) (name : String) : Option (List (String × Node)) :=
  match findChild node name with
  | .map m => some m
  | _ => none

/-! ## The per-kind rewrites -/

/-- Lines 62-69 of `convertCrd`: the `metadata` block.  `none` is a panic of
the slice expression. -/
def convertCrdMetadata (f : Fixer) (rawDocument : Node) : Option Node :=
  match findMapChild rawDocument "metadata" with
  | some metadata =>
    let name := findTextChild (.map metadata) "name"
    let suffix := "." ++ f.fromApiGroup
    if hasSuffix name suffix then
      match sliceTo name ((len name : Int) - (len suffix : Int)) with
      | some head =>
        some (setChild rawDocument "metadata"
          (.map (mapSet metadata "name" (.str (head ++ "." ++ f.toApiGroup)))))
      | none => none
    else some rawDocument
  | none => some rawDocument

/-- Lines 71-76 of `convertCrd`: the `spec` block. -/
def convertCrdSpec (f : Fixer) (rawDocument : Node) : Node :=
  match findMapChild rawDocument "spec" with
  | some spec =>
    if findTextChild (.map spec) "group" = f.fromApiGroup then
      setChild rawDocument "spec" (.map (mapSet spec "group" (.str f.toApiGroup)))
    else rawDocument
  | none => rawDocument

/-- Go `(*fixer).convertCrd`: the document after the call and the returned
`error`; `none` is a panic. -/
def convertCrd (f : Fixer) (rawDocument : Node) : Option (Node × Option GoError) :=
  match convertCrdMetadata f rawDocument with
  | some doc => some (convertCrdSpec f doc, none)
  | none => none

/-- The inner loop of `convertRole` (lines 89-94) over the indices of
`apiGroups`, assigning `apiGroups[index]` in place. -/
def rewriteApiGroups (f : Fixer) (apiGroups : List Node) : List Node :=
  (List.range apiGroups.length).foldl
    (fun a index =>
      match a.get? index with
      | some (.str s) => if s = f.fromApiGroup then a.set index (.str f.toApiGroup) else a
      | _ => a)
    apiGroups

/-- The body of the outer loop of `convertRole` (lines 87-95) for one
`rule`. -/
def convertRule (f : Fixer) (rule : Node) : Node :=
  match findSequenceChild rule "apiGroups" with
  | some apiGroups => setChild rule "apiGroups" (.seq (rewriteApiGroups f apiGroups))
  | none => rule

/-- Go `(*fixer).convertRole`: the document after the call and the returned
`error`. -/
def convertRole (f : Fixer) (rawDocument : Node) : Node × Option GoError :=
  match findSequenceChild rawDocument "rules" with
  | none => (rawDocument, none)
  | some rules => (setChild rawDocument "rules" (.seq (rules.map (convertRule f))), none)

/-- What one iteration of the inner loop of `convertRole` leaves at an index
that held `entry`; the loop is proved equal to mapping this function over
`apiGroups` (`rewriteApiGroups_eq_map`). -/
def rewriteEntry (f : Fixer) : Node → Node
  | .str s => if s = f.fromApiGroup then .str f.toApiGroup else .str s
  | entry => entry

/-! ## The loop of `run` -/

/-- The condition of the first branch of `run` (line 42). -/
def isCrd (rawDocument : Node) : Prop :=
  findTextChild rawDocument "apiVersion" = "apiextensions.k8s.io/v1beta1" ∧
    findTextChild rawDocument "kind" = "CustomResourceDefinition"

/-- The condition of the second branch of `run` (line 46). -/
def isRole (rawDocument : Node) : Prop :=
  findTextChild rawDocument "apiVersion" = "rbac.authorization.k8s.io/v1" ∧
    (findTextChild rawDocument "kind" = "ClusterRole" ∨
      findTextChild rawDocument "kind" = "Role")

instance (rawDocument : Node) : Decidable (isCrd rawDocument) := by
  unfold isCrd; infer_instance

instance (rawDocument : Node) : Decidable (isRole rawDocument) := by
  unfold isRole; infer_instance

/-- Lines 40-53 of `run`: what one iteration does to the decoded document
before it is encoded.  The result is the document and the `error` of the
rewrite; `none` is a panic. -/
def step (f : Fixer) (rawDocument : Node) : Option (Node × Option GoError) :=
  let apiVersion := findTextChild rawDocument "apiVersion"
  if isCrd rawDocument then convertCrd f rawDocument
  else if isRole rawDocument then some (convertRole f rawDocument)
  else if hasPrefix apiVersion (f.fromApiGroup ++ "/") then
    match sliceFrom apiVersion (len (f.fromApiGroup ++ "/")) with
    | some suffix =>
      match rawDocument with
      | .map o => some (.map (mapSet o "apiVersion" (.str (f.toApiGroup ++ "/" ++ suffix))), none)
      | _ => none
    | none => none
  else some (rawDocument, none)

/-- One call of `decoder.Decode`: a document, or an error other than
`io.EOF`.  The end of the list of results is `io.EOF`. -/
inductive DecodeResult where
  | doc (rawDocument : Node)
  | fail (err : GoError)

/-- How `run` ends. -/
inductive Outcome where
  | success
  | failure (err : GoError)
  | panic

/-- The documents the sink has accepted in full, and how `run` ended.  What
a refused `Encode` may have left in the sink is the business of `runStream`
below. -/
structure RunResult where
  written : List Node
  outcome : Outcome

/-- Go `(*fixer).run`, seen document by document.  `encode written doc` is
`encoder.Encode` called after the sink accepted `written`: `none` when it
accepts `doc`, else the error. -/
def run (f : Fixer) (encode : List Node → Node → Option GoError) :
    List DecodeResult → List Node → RunResult
  | [], written => ⟨written, .success⟩
  | .fail err :: _, written => ⟨written, .failure err⟩
  | .doc rawDocument :: rest, written =>
    match step f rawDocument with
    | none => ⟨written, .panic⟩
    | some (_, some err) => ⟨written, .failure err⟩
    | some (doc, none) =>
      match encode written doc with
      | some err => ⟨written, .failure err⟩
      | none => run f encode rest (written ++ [doc])

/-! ## The loop of `run` and the bytes in the sink

`encoder.Encode` hands a document to the `io.Writer` in several `Write`
calls: the emitter of `yaml.v3` writes out its buffer whenever it fills up
and once more at the end of the document.  When a `Write` fails, `Encode`
returns the error, and what the earlier `Write` calls of the same document
delivered stays in the sink.  The encoder is not part of this repository;
how many bytes it delivered before the failure is part of the behaviour of
the sink. -/

/-- One call of `encoder.Encode`: the sink took the whole document, or a
`Write` failed with `err` after the sink had taken `flushed` bytes of the
encoding of the document. -/
inductive EncodeResult where
  | accepted
  | refused (err : GoError) (flushed : Nat)

/-- A piece of the output stream: the whole encoding of a document, or the
first `bytes` bytes of it. -/
inductive Chunk where
  | whole (doc : Node)
  | part (doc : Node) (bytes : Nat)

/-- What the output stream holds at the end, and how `run` ended. -/
structure StreamResult where
  sink : List Chunk
  outcome : Outcome

/-- What a refused `Encode` of `doc` leaves in the sink. -/
def torn (doc : Node) (flushed : Nat) : List Chunk :=
  if flushed = 0 then [] else [.part doc flushed]

/-- Go `(*fixer).run`, with the output stream.  The loop is that of `run`;
the result also shows what a refused `Encode` left behind. -/
def runStream (f : Fixer) (encode : List Node → Node → EncodeResult) :
    List DecodeResult → List Node → StreamResult
  | [], written => ⟨written.map .whole, .success⟩
  | .fail err :: _, written => ⟨written.map .whole, .failure err⟩
  | .doc rawDocument :: rest, written =>
    match step f rawDocument with
    | none => ⟨written.map .whole, .panic⟩
    | some (_, some err) => ⟨written.map .whole, .failure err⟩
    | some (doc, none) =>
      match encode written doc with
      | .refused err flushed => ⟨written.map .whole ++ torn doc flushed, .failure err⟩
      | .accepted => runStream f encode rest (written ++ [doc])

/-- The `error` that `Encode` returns. -/
def encodeError (encode : List Node → Node → EncodeResult) :
    List Node → Node → Option GoError :=
  fun written doc =>
    match encode written doc with
    | .accepted => none
    | .refused err _ => some err

/-- The documents that are in the stream in full. -/
def wholeDocs : List Chunk → List Node
  | [] => []
  | .whole doc :: rest => doc :: wholeDocs rest
  | .part _ _ :: rest => wholeDocs rest

/-! ## The rewrites as updates of one slot

The source reads a child container, changes it in place and leaves the rest
of the document alone.  The functions below say what value a slot holds
afterwards as a function of what it held before; the theorems
`convertCrdMetadata_eq`, `convertCrdSpec_eq`, `convertRule_eq` and
`convertRole_eq` prove that the embedded source functions are exactly these
slot updates. -/

/-- The slot `name` of `node` now holds `g v`, where `v` is what `findChild`
reads there; a slot that reads as `nil` is left as it is. -/
def modChild (node : Node) (name : String) (g : Node → Node) : Node :=
  match findChild node name with
  | .null => node
  | v => setChild node name (g v)

/-- Go `name[0:len(name)-len(suffix)]` when the bounds hold. -/
def stripSuffix (name suffix : String) : String :=
  ⟨name.data.take (len name - len suffix)⟩

/-- What the `metadata` slot holds after the `metadata` block of
`convertCrd`. -/
def metadataValue (f : Fixer) : Node → Node
  | .map metadata =>
    if hasSuffix (findTextChild (.map metadata) "name") ("." ++ f.fromApiGroup) then
      .map (mapSet metadata "name" (.str
        (stripSuffix (findTextChild (.map metadata) "name") ("." ++ f.fromApiGroup)
          ++ "." ++ f.toApiGroup)))
    else .map metadata
  | v => v

/-- What the `spec` slot holds after the `spec` block of `convertCrd`. -/
def specValue (f : Fixer) : Node → Node
  | .map spec =>
    if findTextChild (.map spec) "group" = f.fromApiGroup then
      .map (mapSet spec "group" (.str f.toApiGroup))
    else .map spec
  | v => v

/-- What the `apiGroups` slot of a rule holds after `convertRole`. -/
def apiGroupsValue (f : Fixer) : Node → Node
  | .seq apiGroups => .seq (apiGroups.map (rewriteEntry f))
  | v => v

/-- What the `rules` slot holds after `convertRole`. -/
def rulesValue (f : Fixer) : Node → Node
  | .seq rules => .seq (rules.map (fun rule => modChild rule "apiGroups" (apiGroupsValue f)))
  | v => v

/-- The `name` that `convertCrd` reads (line 64), `""` when there is no
`metadata` mapping. -/
def crdName (rawDocument : Node) : String :=
  match findMapChild rawDocument "metadata" with
  | some metadata => findTextChild (.map metadata) "name"
  | none => ""

/-- What `step` makes of a CRD document (`step_crd`). -/
def crdDoc (f : Fixer) (raw : Node) : Node :=
  modChild (modChild raw "metadata" (metadataValue f)) "spec" (specValue f)

/-- What `step` makes of a Role or ClusterRole document (`step_role`). -/
def roleDoc (f : Fixer) (raw : Node) : Node :=
  modChild raw "rules" (rulesValue f)

/-- The configuration with the two groups exchanged. -/
def swapped (f : Fixer) : Fixer := ⟨f.toApiGroup, f.fromApiGroup⟩

/-! ## Concrete inputs: the scenarios of the specification -/

/-- The configuration `-from old.example.com -to new.example.com`. -/
def scenarioFixer : Fixer := ⟨"old.example.com", "new.example.com"⟩

/-- Scenario 1: a CRD of the group `old.example.com`. -/
def scenarioCrd : Node :=
  .map [("apiVersion", .str "apiextensions.k8s.io/v1beta1"),
    ("kind", .str "CustomResourceDefinition"),
    ("metadata", .map [("name", .str "widgets.old.example.com")]),
    ("spec", .map [("group", .str "old.example.com"), ("scope", .str "Namespaced")])]

/-- Scenario 2: a Role whose first rule names `old.example.com` and `""`, and
whose second rule has no `apiGroups`. -/
def scenarioRole : Node :=
  .map [("apiVersion", .str "rbac.authorization.k8s.io/v1"), ("kind", .str "Role"),
    ("rules", .seq [
      .map [("apiGroups", .seq [.str "old.example.com", .str ""]),
        ("verbs", .seq [.str "get"])],
      .map [("verbs", .seq [.str "list"])]])]

/-- Scenario 3: a resource of the group `old.example.com`. -/
def scenarioGeneric : Node :=
  .map [("apiVersion", .str "old.example.com/v1"), ("kind", .str "Widget")]

/-- Scenario 4: a resource of another group. -/
def scenarioOther : Node :=
  .map [("apiVersion", .str "other.example.com/v1"), ("kind", .str "Widget")]

/-- Scenario 5: a CRD whose `name` does not end with `.old.example.com`. -/
def scenarioCrdOtherName : Node :=
  .map [("apiVersion", .str "apiextensions.k8s.io/v1beta1"),
    ("kind", .str "CustomResourceDefinition"),
    ("metadata", .map [("name", .str "widgets.other.com")]),
    ("spec", .map [("group", .str "old.example.com")])]

/-- A sink that accepts every write. -/
def acceptAll : List Node → Node → Option GoError := fun _ _ => none

/-- A configuration whose destination group ends with `"." +` the source
group. -/
def nestedFixer : Fixer := ⟨"example.com", "new.example.com"⟩

/-- A CRD of the group `example.com`. -/
def nestedCrd : Node :=
  .map [("apiVersion", .str "apiextensions.k8s.io/v1beta1"),
    ("kind", .str "CustomResourceDefinition"),
    ("metadata", .map [("name", .str "widgets.example.com")]),
    ("spec", .map [("group", .str "example.com")])]

/-- The document `nestedCrd` after one pass of `nestedFixer`. -/
def nestedCrdOnce : Node :=
  .map [("apiVersion", .str "apiextensions.k8s.io/v1beta1"),
    ("kind", .str "CustomResourceDefinition"),
    ("metadata", .map [("name", .str "widgets.new.example.com")]),
    ("spec", .map [("group", .str "new.example.com")])]

/-- The document `nestedCrd` after two passes of `nestedFixer`. -/
def nestedCrdTwice : Node :=
  .map [("apiVersion", .str "apiextensions.k8s.io/v1beta1"),
    ("kind", .str "CustomResourceDefinition"),
    ("metadata", .map [("name", .str "widgets.new.new.example.com")]),
    ("spec", .map [("group", .str "new.example.com")])]

/-- A Role that already names both groups. -/
def mixedRole : Node :=
  .map [("apiVersion", .str "rbac.authorization.k8s.io/v1"), ("kind", .str "Role"),
    ("rules", .seq [
      .map [("apiGroups", .seq [.str "old.example.com", .str "new.example.com"])]])]

/-- The document `mixedRole` after one pass of `scenarioFixer`. -/
def mixedRoleOnce : Node :=
  .map [("apiVersion", .str "rbac.authorization.k8s.io/v1"), ("kind", .str "Role"),
    ("rules", .seq [
      .map [("apiGroups", .seq [.str "new.example.com", .str "new.example.com"])]])]

/-- The document `mixedRoleOnce` after one pass of `swapped scenarioFixer`. -/
def mixedRoleBack : Node :=
  .map [("apiVersion", .str "rbac.authorization.k8s.io/v1"), ("kind", .str "Role"),
    ("rules", .seq [
      .map [("apiGroups", .seq [.str "old.example.com", .str "old.example.com"])]])]

/-- A top-level document that is a mapping with a non-string key. -/
def anymapDoc : Node := .anymap [(.int 1, .str "old.example.com/v1")]

/-- A resource whose `apiVersion` differs from `old.example.com/v1` only in
the case of its letters. -/
def upperCaseDoc : Node :=
  .map [("apiVersion", .str "Old.Example.Com/v1"), ("kind", .str "Widget")]

/-- A resource whose `apiVersion` is `old.example.com` followed by the empty
version. -/
def emptyVersionDoc : Node :=
  .map [("apiVersion", .str "old.example.com/"), ("kind", .str "Widget")]

/-- A configuration with both groups empty, which `main` refuses but the
type of `fixer` allows. -/
def emptyFixer : Fixer := ⟨"", ""⟩

/-- A CRD whose `spec` has no `group`. -/
def crdNoGroup : Node :=
  .map [("apiVersion", .str "apiextensions.k8s.io/v1beta1"),
    ("kind", .str "CustomResourceDefinition"),
    ("metadata", .map [("name", .str "widgets.old.example.com")]),
    ("spec", .map [("scope", .str "Namespaced")])]

/-- The document `crdNoGroup` after one pass of `emptyFixer`. -/
def crdNoGroupEmptied : Node :=
  .map [("apiVersion", .str "apiextensions.k8s.io/v1beta1"),
    ("kind", .str "CustomResourceDefinition"),
    ("metadata", .map [("name", .str "widgets.old.example.com")]),
    ("spec", .map [("scope", .str "Namespaced"), ("group", .str "")])]

/-- A CRD whose `name` ends with the source group written in other letter
case and whose `group` is not a string. -/
def crdOtherValues : Node :=
  .map [("apiVersion", .str "apiextensions.k8s.io/v1beta1"),
    ("kind", .str "CustomResourceDefinition"),
    ("metadata", .map [("name", .str "widgets.Old.Example.Com")]),
    ("spec", .map [("group", .int 7), ("scope", .str "Namespaced")])]

/-- A ClusterRole whose first rule is not a mapping, whose second rule has an
`apiGroups` that is not a sequence, and whose third rule names
`old.example.com`. -/
def roleSkipping : Node :=
  .map [("apiVersion", .str "rbac.authorization.k8s.io/v1"), ("kind", .str "ClusterRole"),
    ("rules", .seq [
      .str "get",
      .map [("apiGroups", .str "old.example.com")],
      .map [("apiGroups", .seq [.str "old.example.com"])]])]

/-- A sink that takes one document and the first 123 bytes of the next, and
fails on the following `Write`. -/
def tornSink : List Node → Node → EncodeResult :=
  fun written _ => if written.length < 1 then .accepted else .refused "short write" 123

/-- The document `scenarioCrd` after one pass of `scenarioFixer`. -/
def scenarioCrdOut : Node :=
  .map [("apiVersion", .str "apiextensions.k8s.io/v1beta1"),
    ("kind", .str "CustomResourceDefinition"),
    ("metadata", .map [("name", .str "widgets.new.example.com")]),
    ("spec", .map [("group", .str "new.example.com"), ("scope", .str "Namespaced")])]

/-- The direct key lookup that `findChild` is compared with: the value bound
to `name` when `node` is a string-keyed mapping that has the key, and `nil`
otherwise (Go `o[name]`). -/
def directLookup (node : Node) (name : String) : Node :=
  match node with
  | .map o =>
    match o.lookup name with
    | some v => v
    | none => .null
  | _ => .null

/-- Two trees that are the same document read in two enumeration orders.
Scalars are equal; sequences agree element by element; string-keyed
mappings have unique keys, the same set of keys, and for every key values
that are again the same document; other mappings have the same entries in
some order. -/
inductive SameDocument : Node → Node → Prop where
  | null : SameDocument .null .null
  | str (s : String) : SameDocument (.str s) (.str s)
  | bool (b : Bool) : SameDocument (.bool b) (.bool b)
  | int (i : Int) : SameDocument (.int i) (.int i)
  | float (bits : Nat) : SameDocument (.float bits) (.float bits)
  | seq (xs ys : List Node) : xs.length = ys.length →
      (∀ (i : Nat) (x y : Node), xs[i]? = some x → ys[i]? = some y → SameDocument x y) →
      SameDocument (.seq xs) (.seq ys)
  | map (o o' : List (String × Node)) : (o.map Prod.fst).Nodup → (o'.map Prod.fst).Nodup →
      (∀ k, k ∈ o.map Prod.fst ↔ k ∈ o'.map Prod.fst) →
      (∀ k, SameDocument (findChild (.map o) k) (findChild (.map o') k)) →
      SameDocument (.map o) (.map o')
  | anymap (es es' : List (Node × Node)) : es.Perm es' →
      SameDocument (.anymap es) (.anymap es')

/-- The document `scenarioGeneric` with its entries enumerated in the other
order. -/
def scenarioGenericReordered : Node :=
  .map [("kind", .str "Widget"), ("apiVersion", .str "old.example.com/v1")]

/-- The documents `docs`, read in turn after the sink holds `written`, are
rewritten by `step` into `outs` without error or panic, and the sink accepts
each of them. -/
def Accepted (f : Fixer) (encode : List Node → Node → Option GoError)
    (written docs outs : List Node) : Prop :=
  List.Forall₂ (fun d o => step f d = some (o, none)) docs outs ∧
    ∀ (i : Nat) (o : Node), outs[i]? = some o → encode (written ++ outs.take i) o = none


/-! ## Facts about the string primitives -/

theorem hasPrefix_iff (s pre : String) : hasPrefix s pre = true ↔ ∃ t, s = pre ++ t := by
  constructor
  · intro h
    simp only [hasPrefix, Bool.and_eq_true, decide_eq_true_eq] at h
    refine ⟨⟨s.data.drop (len pre)⟩, ?_⟩
    apply String.ext
    rw [String.data_append, ← h.2]
    simp
  · rintro ⟨t, rfl⟩
    simp [hasPrefix, len]

theorem hasSuffix_iff (s suf : String) : hasSuffix s suf = true ↔ ∃ p, s = p ++ suf := by
  constructor
  · intro h
    simp only [hasSuffix, Bool.and_eq_true, decide_eq_true_eq] at h
    refine ⟨⟨s.data.take (len s - len suf)⟩, ?_⟩
    apply String.ext
    rw [String.data_append, ← h.2]
    simp
  · rintro ⟨p, rfl⟩
    simp [hasSuffix, len]

theorem sliceFrom_append (pre t : String) : sliceFrom (pre ++ t) (len pre) = some t := by
  simp [sliceFrom, len]

theorem sliceTo_append (p suf : String) :
    sliceTo (p ++ suf) ((len (p ++ suf) : Int) - (len suf : Int)) = some p := by
  simp [sliceTo, len]


/-! ## Facts about the map primitives -/

theorem findChild_mapSet_self (o : List (String × Node)) (k : String) (v : Node) :
    findChild (.map (mapSet o k v)) k = v := by
  induction o with
  | nil => simp [mapSet, findChild]
  | cons kv rest ih =>
    obtain ⟨k', v'⟩ := kv
    by_cases h : k' = k
    · simp [mapSet, findChild, h]
    · simpa [mapSet, findChild, h] using ih

theorem findChild_mapSet_ne (o : List (String × Node)) (k k' : String) (v : Node)
    (h : k' ≠ k) : findChild (.map (mapSet o k v)) k' = findChild (.map o) k' := by
  induction o with
  | nil => simp [mapSet, findChild, Ne.symm h]
  | cons kv rest ih =>
    obtain ⟨k₁, v₁⟩ := kv
    by_cases h₁ : k₁ = k
    · subst h₁
      simp [mapSet, findChild, Ne.symm h]
    · by_cases h₂ : k₁ = k'
      · subst h₂
        simp [mapSet, findChild, h]
      · simpa [mapSet, findChild, h₁, h₂] using ih

theorem mapSet_mapSet (o : List (String × Node)) (k : String) (v w : Node) :
    mapSet (mapSet o k v) k w = mapSet o k w := by
  induction o with
  | nil => simp [mapSet]
  | cons kv rest ih =>
    obtain ⟨k', v'⟩ := kv
    by_cases h : k' = k
    · simp [mapSet, h]
    · simp [mapSet, h, ih]

/-- Overwriting an entry with the value it already holds changes nothing,
as long as the key is bound to something other than `nil`. -/
theorem mapSet_findChild (o : List (String × Node)) (k : String)
    (h : findChild (.map o) k ≠ .null) : mapSet o k (findChild (.map o) k) = o := by
  induction o with
  | nil => simp [findChild] at h
  | cons kv rest ih =>
    obtain ⟨k', v'⟩ := kv
    by_cases h₁ : k' = k
    · simp [mapSet, findChild, h₁]
    · have h₂ : findChild (.map ((k', v') :: rest)) k = findChild (.map rest) k := by
        simp [findChild, h₁]
      rw [h₂] at h ⊢
      simp [mapSet, h₁, ih h]

theorem findChild_ne_null_is_map (node : Node) (name : String)
    (h : findChild node name ≠ .null) : ∃ o, node = .map o := by
  cases node <;> simp [findChild] at h ⊢

theorem findChild_setChild_self (o : List (String × Node)) (k : String) (v : Node) :
    findChild (setChild (.map o) k v) k = v := by
  simp [setChild, findChild_mapSet_self]

theorem findChild_setChild_ne (node : Node) (k k' : String) (v : Node) (h : k' ≠ k) :
    findChild (setChild node k v) k' = findChild node k' := by
  cases node <;> simp [setChild, findChild_mapSet_ne _ _ _ _ h]

theorem setChild_setChild (node : Node) (k : String) (v w : Node) :
    setChild (setChild node k v) k w = setChild node k w := by
  cases node <;> simp [setChild, mapSet_mapSet]

theorem setChild_findChild (node : Node) (k : String) (h : findChild node k ≠ .null) :
    setChild node k (findChild node k) = node := by
  obtain ⟨o, rfl⟩ := findChild_ne_null_is_map node k h
  simp [setChild, mapSet_findChild o k h]

theorem findMapChild_eq_some {node : Node} {name : String} {m : List (String × Node)}
    (h : findMapChild node name = some m) : findChild node name = .map m := by
  unfold findMapChild at h
  split at h
  · rename_i m' hm; rw [hm]; simpa using h
  · cases h

theorem findSequenceChild_eq_some {node : Node} {name : String} {a : List Node}
    (h : findSequenceChild node name = some a) : findChild node name = .seq a := by
  unfold findSequenceChild at h
  split at h
  · rename_i a' ha; rw [ha]; simpa using h
  · cases h

theorem findTextChild_ne_empty {node : Node} {name : String}
    (h : findTextChild node name ≠ "") :
    findChild node name = .str (findTextChild node name) := by
  unfold findTextChild at h ⊢
  split
  · rename_i s hs; rw [hs]
  · rename_i hs; simp at h


/-! ## The blocks of `convertCrd`, case by case -/

theorem convertCrdMetadata_of_none (f : Fixer) (raw : Node)
    (h : findMapChild raw "metadata" = none) : convertCrdMetadata f raw = some raw := by
  simp [convertCrdMetadata, h]

theorem convertCrdMetadata_of_not_suffix (f : Fixer) (raw : Node)
    (metadata : List (String × Node)) (h : findMapChild raw "metadata" = some metadata)
    (hs : hasSuffix (findTextChild (.map metadata) "name") ("." ++ f.fromApiGroup) = false) :
    convertCrdMetadata f raw = some raw := by
  simp [convertCrdMetadata, h, hs]

theorem convertCrdMetadata_of_suffix (f : Fixer) (raw : Node)
    (metadata : List (String × Node)) (p : String)
    (h : findMapChild raw "metadata" = some metadata)
    (hn : findTextChild (.map metadata) "name" = p ++ ("." ++ f.fromApiGroup)) :
    convertCrdMetadata f raw = some (setChild raw "metadata"
      (.map (mapSet metadata "name" (.str (p ++ "." ++ f.toApiGroup))))) := by
  have hs : hasSuffix (p ++ ("." ++ f.fromApiGroup)) ("." ++ f.fromApiGroup) = true :=
    (hasSuffix_iff _ _).2 ⟨p, rfl⟩
  simp only [convertCrdMetadata, h, hn, hs, if_true, sliceTo_append]

/-- The `metadata` block never panics. -/
theorem convertCrdMetadata_total (f : Fixer) (raw : Node) :
    ∃ doc, convertCrdMetadata f raw = some doc := by
  cases h : findMapChild raw "metadata" with
  | none => exact ⟨_, convertCrdMetadata_of_none f raw h⟩
  | some metadata =>
    cases hs : hasSuffix (findTextChild (.map metadata) "name") ("." ++ f.fromApiGroup) with
    | false => exact ⟨_, convertCrdMetadata_of_not_suffix f raw metadata h hs⟩
    | true =>
      obtain ⟨p, hp⟩ := (hasSuffix_iff _ _).1 hs
      exact ⟨_, convertCrdMetadata_of_suffix f raw metadata p h hp⟩

theorem convertCrd_total (f : Fixer) (raw : Node) :
    ∃ doc, convertCrd f raw = some (doc, none) := by
  obtain ⟨d, hd⟩ := convertCrdMetadata_total f raw
  exact ⟨convertCrdSpec f d, by simp [convertCrd, hd]⟩

theorem convertRole_snd (f : Fixer) (raw : Node) : (convertRole f raw).2 = none := by
  unfold convertRole
  split <;> rfl

/-- The generic branch, taken on `apiVersion = fromApiGroup + "/" + t`. -/
theorem step_generic (f : Fixer) (raw : Node) (t : String)
    (hc : ¬ isCrd raw) (hr : ¬ isRole raw)
    (hv : findTextChild raw "apiVersion" = f.fromApiGroup ++ "/" ++ t) :
    ∃ o, raw = .map o ∧
      step f raw = some (.map (mapSet o "apiVersion" (.str (f.toApiGroup ++ "/" ++ t))), none) := by
  have hne : findTextChild raw "apiVersion" ≠ "" := by
    rw [hv]
    intro h
    have := congrArg len h
    simp [len] at this
  have hch := findTextChild_ne_empty hne
  obtain ⟨o, rfl⟩ := findChild_ne_null_is_map raw "apiVersion" (by rw [hch]; simp)
  refine ⟨o, rfl, ?_⟩
  have hp : hasPrefix (f.fromApiGroup ++ "/" ++ t) (f.fromApiGroup ++ "/") = true :=
    (hasPrefix_iff _ _).2 ⟨t, rfl⟩
  simp only [step, hc, hr, if_false, hv, hp, if_true, sliceFrom_append]

theorem step_of_no_rule (f : Fixer) (raw : Node) (hc : ¬ isCrd raw) (hr : ¬ isRole raw)
    (hp : hasPrefix (findTextChild raw "apiVersion") (f.fromApiGroup ++ "/") = false) :
    step f raw = some (raw, none) := by
  simp [step, hc, hr, hp]

/-- One iteration never panics and its rewrite never returns an error. -/
theorem step_total (f : Fixer) (raw : Node) : ∃ doc, step f raw = some (doc, none) := by
  by_cases hc : isCrd raw
  · obtain ⟨d, hd⟩ := convertCrd_total f raw
    exact ⟨d, by simp [step, hc, hd]⟩
  · by_cases hr : isRole raw
    · refine ⟨(convertRole f raw).1, ?_⟩
      simp only [step, hc, hr, if_false, if_true]
      rw [← convertRole_snd f raw]
    · cases hp : hasPrefix (findTextChild raw "apiVersion") (f.fromApiGroup ++ "/") with
      | false => exact ⟨raw, step_of_no_rule f raw hc hr hp⟩
      | true =>
        obtain ⟨t, ht⟩ := (hasPrefix_iff _ _).1 hp
        obtain ⟨o, -, ho⟩ := step_generic f raw t hc hr ht
        exact ⟨_, ho⟩

/-! ## What each branch leaves alone -/

theorem isRole_not_isCrd (raw : Node) (h : isRole raw) : ¬ isCrd raw := by
  intro hc
  have h₁ := h.1
  rw [hc.1] at h₁
  exact absurd h₁ (by decide)

theorem step_of_isCrd (f : Fixer) (raw : Node) (h : isCrd raw) :
    step f raw = convertCrd f raw := by
  simp [step, h]

theorem step_of_isRole (f : Fixer) (raw : Node) (h : isRole raw) :
    step f raw = some (convertRole f raw) := by
  simp [step, h, isRole_not_isCrd raw h]

theorem findChild_convertCrdMetadata (f : Fixer) (raw doc : Node) (k : String)
    (h : convertCrdMetadata f raw = some doc) (hk : k ≠ "metadata") :
    findChild doc k = findChild raw k := by
  unfold convertCrdMetadata at h
  split at h
  · simp only at h
    split at h
    · split at h
      · cases h
        exact findChild_setChild_ne raw "metadata" k _ hk
      · cases h
    · cases h; rfl
  · cases h; rfl

theorem findChild_convertCrdSpec (f : Fixer) (raw : Node) (k : String) (hk : k ≠ "spec") :
    findChild (convertCrdSpec f raw) k = findChild raw k := by
  unfold convertCrdSpec
  split
  · split
    · exact findChild_setChild_ne raw "spec" k _ hk
    · rfl
  · rfl

theorem convertCrdSpec_of_group (f : Fixer) (raw : Node) (spec : List (String × Node))
    (h : findMapChild raw "spec" = some spec)
    (hg : findTextChild (.map spec) "group" = f.fromApiGroup) :
    convertCrdSpec f raw =
      setChild raw "spec" (.map (mapSet spec "group" (.str f.toApiGroup))) := by
  simp [convertCrdSpec, h, hg]

theorem convertCrdSpec_of_not_group (f : Fixer) (raw : Node) (spec : List (String × Node))
    (h : findMapChild raw "spec" = some spec)
    (hg : findTextChild (.map spec) "group" ≠ f.fromApiGroup) :
    convertCrdSpec f raw = raw := by
  simp [convertCrdSpec, h, hg]

theorem convertCrdSpec_of_none (f : Fixer) (raw : Node)
    (h : findMapChild raw "spec" = none) : convertCrdSpec f raw = raw := by
  simp [convertCrdSpec, h]

theorem findMapChild_is_map {raw : Node} {name : String} {m : List (String × Node)}
    (h : findMapChild raw name = some m) : ∃ o, raw = .map o :=
  findChild_ne_null_is_map raw name (by rw [findMapChild_eq_some h]; simp)

/-! ## The loops of `convertRole` -/

theorem rewrite_body_eq_modify (f : Fixer) (a : List Node) (index : Nat) :
    (match a.get? index with
      | some (.str s) => if s = f.fromApiGroup then a.set index (.str f.toApiGroup) else a
      | _ => a) = a.modify (rewriteEntry f) index := by
  induction a generalizing index with
  | nil => simp
  | cons x xs ih =>
    cases index with
    | zero =>
      cases x <;> simp [rewriteEntry]
      split <;> simp_all
    | succ n =>
      have := ih n
      simp only [List.get?_cons_succ, List.set_cons_succ, List.modify_succ_cons]
      rw [← this]
      split
      · split <;> rfl
      · rfl

theorem getElem?_foldl_modify {α : Type} (g : α → α) (xs : List α) (k i : Nat) :
    ((List.range k).foldl (fun a j => a.modify g j) xs)[i]? =
      if i < k then xs[i]?.map g else xs[i]? := by
  induction k with
  | zero => simp
  | succ k ih =>
    rw [List.range_succ, List.foldl_append]
    simp only [List.foldl_cons, List.foldl_nil, List.getElem?_modify, ih]
    by_cases h₁ : i < k
    · have h₂ : k ≠ i := by omega
      have h₃ : i < k + 1 := by omega
      simp [h₁, h₂, h₃]
    · by_cases h₂ : k = i
      · subst h₂
        simp
      · have h₃ : ¬ i < k + 1 := by omega
        simp [h₁, h₂, h₃]

/-- The index loop over `apiGroups` rewrites every entry on its own. -/
theorem rewriteApiGroups_eq_map (f : Fixer) (apiGroups : List Node) :
    rewriteApiGroups f apiGroups = apiGroups.map (rewriteEntry f) := by
  unfold rewriteApiGroups
  simp only [rewrite_body_eq_modify]
  apply List.ext_getElem?
  intro i
  rw [getElem?_foldl_modify, List.getElem?_map]
  split
  · rfl
  · rename_i h
    rw [List.getElem?_eq_none (by omega)]
    rfl

theorem rewriteEntry_of_eq (f : Fixer) : rewriteEntry f (.str f.fromApiGroup) = .str f.toApiGroup := by
  simp [rewriteEntry]

theorem rewriteEntry_of_ne (f : Fixer) (entry : Node) (h : entry ≠ .str f.fromApiGroup) :
    rewriteEntry f entry = entry := by
  cases entry <;> simp [rewriteEntry] at h ⊢
  intro h'; exact absurd h' h

theorem findSequenceChild_is_map {raw : Node} {name : String} {a : List Node}
    (h : findSequenceChild raw name = some a) : ∃ o, raw = .map o :=
  findChild_ne_null_is_map raw name (by rw [findSequenceChild_eq_some h]; simp)

theorem convertRule_of_some (f : Fixer) (rule : Node) (apiGroups : List Node)
    (h : findSequenceChild rule "apiGroups" = some apiGroups) :
    convertRule f rule =
      setChild rule "apiGroups" (.seq (apiGroups.map (rewriteEntry f))) := by
  simp [convertRule, h, rewriteApiGroups_eq_map]

theorem convertRule_of_none (f : Fixer) (rule : Node)
    (h : findSequenceChild rule "apiGroups" = none) : convertRule f rule = rule := by
  simp [convertRule, h]

theorem convertRole_of_some (f : Fixer) (raw : Node) (rules : List Node)
    (h : findSequenceChild raw "rules" = some rules) :
    convertRole f raw = (setChild raw "rules" (.seq (rules.map (convertRule f))), none) := by
  simp [convertRole, h]

theorem convertRole_of_none (f : Fixer) (raw : Node)
    (h : findSequenceChild raw "rules" = none) : convertRole f raw = (raw, none) := by
  simp [convertRole, h]

/-! ## Slot updates -/

theorem mapSet_comm (o : List (String × Node)) (k k' : String) (v v' : Node)
    (hk : k ≠ k') (hp : findChild (.map o) k ≠ .null) :
    mapSet (mapSet o k v) k' v' = mapSet (mapSet o k' v') k v := by
  induction o with
  | nil => simp [findChild] at hp
  | cons kv rest ih =>
    obtain ⟨k₁, v₁⟩ := kv
    by_cases h₁ : k₁ = k
    · subst h₁
      simp [mapSet, hk]
    · by_cases h₂ : k₁ = k'
      · subst h₂
        simp [mapSet, h₁]
      · have hp' : findChild (.map rest) k ≠ .null := by
          simpa [findChild, h₁] using hp
        simp [mapSet, h₁, h₂, ih hp']

theorem setChild_comm (node : Node) (k k' : String) (v v' : Node)
    (hk : k ≠ k') (hp : findChild node k ≠ .null) :
    setChild (setChild node k v) k' v' = setChild (setChild node k' v') k v := by
  obtain ⟨o, rfl⟩ := findChild_ne_null_is_map node k hp
  simp [setChild, mapSet_comm o k k' v v' hk hp]

theorem modChild_of_null (node : Node) (k : String) (g : Node → Node)
    (h : findChild node k = .null) : modChild node k g = node := by
  simp [modChild, h]

theorem modChild_of_ne_null (node : Node) (k : String) (g : Node → Node)
    (h : findChild node k ≠ .null) :
    modChild node k g = setChild node k (g (findChild node k)) := by
  unfold modChild
  split
  · rename_i h'; exact absurd h' h
  · rfl

theorem modChild_of_fixed (node : Node) (k : String) (g : Node → Node)
    (h : g (findChild node k) = findChild node k) : modChild node k g = node := by
  by_cases hn : findChild node k = .null
  · exact modChild_of_null node k g hn
  · rw [modChild_of_ne_null node k g hn, h, setChild_findChild node k hn]

theorem findChild_modChild_ne (node : Node) (k k' : String) (g : Node → Node)
    (h : k' ≠ k) : findChild (modChild node k g) k' = findChild node k' := by
  by_cases hn : findChild node k = .null
  · rw [modChild_of_null node k g hn]
  · rw [modChild_of_ne_null node k g hn, findChild_setChild_ne node k k' _ h]

theorem findChild_modChild_self (node : Node) (k : String) (g : Node → Node)
    (hg : g .null = .null) : findChild (modChild node k g) k = g (findChild node k) := by
  by_cases hn : findChild node k = .null
  · rw [modChild_of_null node k g hn, hn, hg]
  · obtain ⟨o, rfl⟩ := findChild_ne_null_is_map node k hn
    rw [modChild_of_ne_null _ k g hn, findChild_setChild_self]

theorem modChild_modChild (node : Node) (k : String) (g h : Node → Node)
    (hg : ∀ v, v ≠ .null → g v ≠ .null) :
    modChild (modChild node k g) k h = modChild node k (fun v => h (g v)) := by
  by_cases hn : findChild node k = .null
  · rw [modChild_of_null node k g hn, modChild_of_null node k h hn,
      modChild_of_null node k _ hn]
  · obtain ⟨o, rfl⟩ := findChild_ne_null_is_map node k hn
    rw [modChild_of_ne_null _ k g hn, modChild_of_ne_null _ k _ hn]
    have h₁ : findChild (setChild (.map o) k (g (findChild (.map o) k))) k =
        g (findChild (.map o) k) := findChild_setChild_self o k _
    rw [modChild_of_ne_null _ k h (by rw [h₁]; exact hg _ hn), h₁, setChild_setChild]

theorem modChild_comm (node : Node) (k k' : String) (g h : Node → Node) (hk : k ≠ k') :
    modChild (modChild node k g) k' h = modChild (modChild node k' h) k g := by
  by_cases hn : findChild node k = .null
  · have h₁ : findChild (modChild node k' h) k = .null := by
      rw [findChild_modChild_ne node k' k h hk, hn]
    rw [modChild_of_null node k g hn, modChild_of_null _ k g h₁]
  · by_cases hn' : findChild node k' = .null
    · have h₁ : findChild (modChild node k g) k' = .null := by
        rw [findChild_modChild_ne node k k' g (Ne.symm hk), hn']
      rw [modChild_of_null node k' h hn', modChild_of_null _ k' h h₁]
    · have h₁ : findChild (modChild node k g) k' = findChild node k' :=
        findChild_modChild_ne node k k' g (Ne.symm hk)
      have h₂ : findChild (modChild node k' h) k = findChild node k :=
        findChild_modChild_ne node k' k h hk
      rw [modChild_of_ne_null (modChild node k g) k' h (by rw [h₁]; exact hn'), h₁,
        modChild_of_ne_null (modChild node k' h) k g (by rw [h₂]; exact hn), h₂,
        modChild_of_ne_null node k g hn, modChild_of_ne_null node k' h hn',
        setChild_comm node k k' _ _ hk hn]

theorem stripSuffix_append (p suffix : String) : stripSuffix (p ++ suffix) suffix = p := by
  simp [stripSuffix, len]

/-! ## The source functions are slot updates -/

theorem convertCrdMetadata_eq (f : Fixer) (raw : Node) :
    convertCrdMetadata f raw = some (modChild raw "metadata" (metadataValue f)) := by
  cases h : findMapChild raw "metadata" with
  | none =>
    rw [convertCrdMetadata_of_none f raw h, modChild_of_fixed]
    unfold findMapChild at h
    split at h
    · cases h
    · rename_i hv
      unfold metadataValue
      split
      · rename_i m hm; exact absurd hm (hv m)
      · rfl
  | some metadata =>
    have hc := findMapChild_eq_some h
    cases hs : hasSuffix (findTextChild (.map metadata) "name") ("." ++ f.fromApiGroup) with
    | false =>
      rw [convertCrdMetadata_of_not_suffix f raw metadata h hs, modChild_of_fixed]
      rw [hc]
      simp [metadataValue, hs]
    | true =>
      obtain ⟨p, hp⟩ := (hasSuffix_iff _ _).1 hs
      rw [convertCrdMetadata_of_suffix f raw metadata p h hp,
        modChild_of_ne_null raw _ _ (by rw [hc]; simp), hc]
      simp only [metadataValue, hs, if_true]
      rw [hp, stripSuffix_append]

theorem convertCrdSpec_eq (f : Fixer) (raw : Node) :
    convertCrdSpec f raw = modChild raw "spec" (specValue f) := by
  cases h : findMapChild raw "spec" with
  | none =>
    rw [convertCrdSpec_of_none f raw h, modChild_of_fixed]
    unfold findMapChild at h
    split at h
    · cases h
    · rename_i hv
      unfold specValue
      split
      · rename_i m hm; exact absurd hm (hv m)
      · rfl
  | some spec =>
    have hc := findMapChild_eq_some h
    by_cases hg : findTextChild (.map spec) "group" = f.fromApiGroup
    · rw [convertCrdSpec_of_group f raw spec h hg,
        modChild_of_ne_null raw _ _ (by rw [hc]; simp), hc]
      simp [specValue, hg]
    · rw [convertCrdSpec_of_not_group f raw spec h hg, modChild_of_fixed]
      rw [hc]
      simp [specValue, hg]

theorem convertCrd_eq (f : Fixer) (raw : Node) :
    convertCrd f raw =
      some (modChild (modChild raw "metadata" (metadataValue f)) "spec" (specValue f), none) := by
  simp [convertCrd, convertCrdMetadata_eq, convertCrdSpec_eq]

theorem convertRule_eq (f : Fixer) (rule : Node) :
    convertRule f rule = modChild rule "apiGroups" (apiGroupsValue f) := by
  cases h : findSequenceChild rule "apiGroups" with
  | none =>
    rw [convertRule_of_none f rule h, modChild_of_fixed]
    unfold findSequenceChild at h
    split at h
    · cases h
    · rename_i hv
      unfold apiGroupsValue
      split
      · rename_i a ha; exact absurd ha (hv a)
      · rfl
  | some apiGroups =>
    have hc := findSequenceChild_eq_some h
    rw [convertRule_of_some f rule apiGroups h,
      modChild_of_ne_null rule _ _ (by rw [hc]; simp), hc]
    rfl

theorem convertRole_eq (f : Fixer) (raw : Node) :
    convertRole f raw = (modChild raw "rules" (rulesValue f), none) := by
  cases h : findSequenceChild raw "rules" with
  | none =>
    rw [convertRole_of_none f raw h, modChild_of_fixed]
    unfold findSequenceChild at h
    split at h
    · cases h
    · rename_i hv
      unfold rulesValue
      split
      · rename_i a ha; exact absurd ha (hv a)
      · rfl
  | some rules =>
    have hc := findSequenceChild_eq_some h
    rw [convertRole_of_some f raw rules h,
      modChild_of_ne_null raw _ _ (by rw [hc]; simp), hc]
    have hfun : convertRule f = fun rule => modChild rule "apiGroups" (apiGroupsValue f) :=
      funext (convertRule_eq f)
    simp only [rulesValue, hfun]

/-! ## `step` on the two targeted kinds -/

theorem step_crd (f : Fixer) (raw : Node) (h : isCrd raw) :
    step f raw = some (crdDoc f raw, none) := by
  rw [step_of_isCrd f raw h, convertCrd_eq]
  rfl

theorem step_role (f : Fixer) (raw : Node) (h : isRole raw) :
    step f raw = some (roleDoc f raw, none) := by
  rw [step_of_isRole f raw h, convertRole_eq]
  rfl

theorem findChild_crdDoc (f : Fixer) (raw : Node) (k : String)
    (h₁ : k ≠ "metadata") (h₂ : k ≠ "spec") :
    findChild (crdDoc f raw) k = findChild raw k := by
  unfold crdDoc
  rw [findChild_modChild_ne _ _ _ _ h₂, findChild_modChild_ne _ _ _ _ h₁]

theorem findChild_roleDoc (f : Fixer) (raw : Node) (k : String) (h : k ≠ "rules") :
    findChild (roleDoc f raw) k = findChild raw k :=
  findChild_modChild_ne _ _ _ _ h

theorem isCrd_crdDoc (f : Fixer) (raw : Node) (h : isCrd raw) : isCrd (crdDoc f raw) := by
  unfold isCrd findTextChild at *
  rw [findChild_crdDoc f raw _ (by decide) (by decide),
    findChild_crdDoc f raw _ (by decide) (by decide)]
  exact h

theorem isRole_roleDoc (f : Fixer) (raw : Node) (h : isRole raw) : isRole (roleDoc f raw) := by
  unfold isRole findTextChild at *
  rw [findChild_roleDoc f raw _ (by decide), findChild_roleDoc f raw _ (by decide)]
  exact h

/-! ## Applying the rewrites twice -/

theorem rewriteEntry_idem (f : Fixer) (entry : Node) :
    rewriteEntry f (rewriteEntry f entry) = rewriteEntry f entry := by
  cases entry <;> try rfl
  rename_i s
  by_cases h : s = f.fromApiGroup
  · by_cases h' : f.toApiGroup = f.fromApiGroup <;> simp [rewriteEntry, h, h']
  · simp [rewriteEntry, h]

theorem apiGroupsValue_idem (f : Fixer) (v : Node) :
    apiGroupsValue f (apiGroupsValue f v) = apiGroupsValue f v := by
  cases v <;> simp [apiGroupsValue, rewriteEntry_idem]

theorem apiGroupsValue_ne_null (f : Fixer) (v : Node) (h : v ≠ .null) :
    apiGroupsValue f v ≠ .null := by
  cases v <;> simp [apiGroupsValue] at h ⊢

theorem rulesValue_ne_null (f : Fixer) (v : Node) (h : v ≠ .null) :
    rulesValue f v ≠ .null := by
  cases v <;> simp [rulesValue] at h ⊢

theorem metadataValue_ne_null (f : Fixer) (v : Node) (h : v ≠ .null) :
    metadataValue f v ≠ .null := by
  cases v <;> simp [metadataValue] at h ⊢
  split <;> simp

theorem specValue_ne_null (f : Fixer) (v : Node) (h : v ≠ .null) :
    specValue f v ≠ .null := by
  cases v <;> simp [specValue] at h ⊢
  split <;> simp

theorem rulesValue_idem (f : Fixer) (v : Node) :
    rulesValue f (rulesValue f v) = rulesValue f v := by
  cases v <;> simp only [rulesValue]
  rename_i rules
  simp only [List.map_map, Node.seq.injEq]
  apply List.map_congr_left
  intro rule _
  simp only [Function.comp]
  rw [modChild_modChild _ _ _ _ (apiGroupsValue_ne_null f)]
  simp only [apiGroupsValue_idem]

theorem specValue_idem (f : Fixer) (v : Node) :
    specValue f (specValue f v) = specValue f v := by
  cases v <;> simp only [specValue]
  rename_i spec
  by_cases hg : findTextChild (.map spec) "group" = f.fromApiGroup
  · simp only [hg, if_true, specValue]
    have ht : findTextChild (.map (mapSet spec "group" (.str f.toApiGroup))) "group" =
        f.toApiGroup := by
      simp [findTextChild, findChild_mapSet_self]
    rw [ht]
    split
    · rw [mapSet_mapSet]
    · rfl
  · simp [hg, specValue]

/-- The `name` read from a `metadata` slot. -/
theorem crdName_eq (doc : Node) (metadata : List (String × Node))
    (h : findChild doc "metadata" = .map metadata) :
    crdName doc = findTextChild (.map metadata) "name" := by
  simp [crdName, findMapChild, h]

theorem crdName_of_not_map (doc : Node)
    (h : ∀ metadata, findChild doc "metadata" ≠ .map metadata) : crdName doc = "" := by
  unfold crdName findMapChild
  split
  · rename_i m hm
    split at hm
    · rename_i m' hm'; exact absurd hm' (h m')
    · cases hm
  · rfl

theorem hasSuffix_empty_dot (g : String) : hasSuffix "" ("." ++ g) = false := by
  cases h : hasSuffix "" ("." ++ g) with
  | false => rfl
  | true =>
    obtain ⟨p, hp⟩ := (hasSuffix_iff _ _).1 h
    have := congrArg len hp
    simp [len] at this
    omega

/-- A `metadata` slot whose `name` does not end with the suffix is left as it
is. -/
theorem metadataValue_of_not_suffix (f : Fixer) (doc : Node)
    (h : hasSuffix (crdName doc) ("." ++ f.fromApiGroup) = false) :
    metadataValue f (findChild doc "metadata") = findChild doc "metadata" := by
  cases hv : findChild doc "metadata" <;> simp only [metadataValue]
  rename_i metadata
  rw [crdName_eq doc metadata hv] at h
  simp [h]

theorem string_append_left_cancel (p a b : String) (h : p ++ a = p ++ b) : a = b := by
  have := congrArg String.data h
  simp only [String.data_append, List.append_cancel_left_eq] at this
  exact String.ext this

theorem findChild_crdDoc_metadata (f : Fixer) (raw : Node) :
    findChild (crdDoc f raw) "metadata" = metadataValue f (findChild raw "metadata") := by
  unfold crdDoc
  rw [findChild_modChild_ne _ _ _ _ (by decide), findChild_modChild_self _ _ _ rfl]

theorem findChild_crdDoc_spec (f : Fixer) (raw : Node) :
    findChild (crdDoc f raw) "spec" = specValue f (findChild raw "spec") := by
  unfold crdDoc
  rw [findChild_modChild_self _ _ _ rfl, findChild_modChild_ne _ _ _ _ (by decide)]

/-- A second pass over a rewritten Role or ClusterRole changes nothing. -/
theorem roleDoc_idem (f : Fixer) (raw : Node) : roleDoc f (roleDoc f raw) = roleDoc f raw := by
  unfold roleDoc
  rw [modChild_modChild _ _ _ _ (rulesValue_ne_null f)]
  simp only [rulesValue_idem]

/-- A second pass over a rewritten CRD changes nothing when the rewritten
`name` does not end with the suffix again. -/
theorem crdDoc_idem (f : Fixer) (raw : Node)
    (h : hasSuffix (crdName (crdDoc f raw)) ("." ++ f.fromApiGroup) = false) :
    crdDoc f (crdDoc f raw) = crdDoc f raw := by
  have h₁ : modChild (crdDoc f raw) "metadata" (metadataValue f) = crdDoc f raw :=
    modChild_of_fixed _ _ _ (metadataValue_of_not_suffix f _ h)
  have h₂ : modChild (crdDoc f raw) "spec" (specValue f) = crdDoc f raw := by
    apply modChild_of_fixed
    rw [findChild_crdDoc_spec, specValue_idem]
  show modChild (modChild (crdDoc f raw) "metadata" (metadataValue f)) "spec" (specValue f) = _
  rw [h₁, h₂]

/-- A second pass over a rewritten CRD changes `metadata.name` again when the
rewritten `name` ends with the suffix and the groups differ. -/
theorem crdDoc_not_idem (f : Fixer) (raw : Node) (hne : f.toApiGroup ≠ f.fromApiGroup)
    (h : hasSuffix (crdName (crdDoc f raw)) ("." ++ f.fromApiGroup) = true) :
    crdDoc f (crdDoc f raw) ≠ crdDoc f raw := by
  intro heq
  have hmeta := congrArg (fun d => findChild d "metadata") heq
  simp only at hmeta
  rw [findChild_crdDoc_metadata f (crdDoc f raw)] at hmeta
  cases hv : findChild (crdDoc f raw) "metadata" with
  | map metadata =>
    rw [crdName_eq _ metadata hv] at h
    rw [hv] at hmeta
    simp only [metadataValue, h, if_true, Node.map.injEq] at hmeta
    obtain ⟨p, hp⟩ := (hasSuffix_iff _ _).1 h
    have hname := congrArg (fun m => findTextChild (.map m) "name") hmeta
    simp only [findTextChild, findChild_mapSet_self] at hname
    simp only [findTextChild] at hp
    rw [hp, stripSuffix_append, String.append_assoc] at hname
    have := string_append_left_cancel p _ _ hname
    exact hne (string_append_left_cancel "." _ _ this)
  | null => rw [crdName_of_not_map _ (by rw [hv]; simp), hasSuffix_empty_dot] at h; cases h
  | str _ => rw [crdName_of_not_map _ (by rw [hv]; simp), hasSuffix_empty_dot] at h; cases h
  | bool _ => rw [crdName_of_not_map _ (by rw [hv]; simp), hasSuffix_empty_dot] at h; cases h
  | int _ => rw [crdName_of_not_map _ (by rw [hv]; simp), hasSuffix_empty_dot] at h; cases h
  | float _ => rw [crdName_of_not_map _ (by rw [hv]; simp), hasSuffix_empty_dot] at h; cases h
  | seq _ => rw [crdName_of_not_map _ (by rw [hv]; simp), hasSuffix_empty_dot] at h; cases h
  | anymap _ => rw [crdName_of_not_map _ (by rw [hv]; simp), hasSuffix_empty_dot] at h; cases h

/-! ## Applying the rewrites and then the reverse rewrites -/

theorem rewriteEntry_swapped (f : Fixer) (entry : Node) (h : entry ≠ .str f.toApiGroup) :
    rewriteEntry (swapped f) (rewriteEntry f entry) = entry := by
  cases entry <;> try rfl
  rename_i s
  have hs : s ≠ f.toApiGroup := fun e => h (by rw [e])
  by_cases h₁ : s = f.fromApiGroup
  · simp [rewriteEntry, swapped, h₁]
  · simp [rewriteEntry, swapped, h₁, hs]

theorem apiGroupsValue_swapped (f : Fixer) (v : Node)
    (h : ∀ apiGroups, v = .seq apiGroups → Node.str f.toApiGroup ∉ apiGroups) :
    apiGroupsValue (swapped f) (apiGroupsValue f v) = v := by
  cases v <;> try rfl
  rename_i apiGroups
  simp only [apiGroupsValue, List.map_map, Node.seq.injEq]
  conv_rhs => rw [← List.map_id apiGroups]
  apply List.map_congr_left
  intro entry he
  exact rewriteEntry_swapped f entry (fun e => h apiGroups rfl (e ▸ he))

theorem rulesValue_swapped (f : Fixer) (v : Node)
    (h : ∀ rules rule apiGroups, v = .seq rules → rule ∈ rules →
      findChild rule "apiGroups" = .seq apiGroups → Node.str f.toApiGroup ∉ apiGroups) :
    rulesValue (swapped f) (rulesValue f v) = v := by
  cases v <;> try rfl
  rename_i rules
  simp only [rulesValue, List.map_map, Node.seq.injEq]
  conv_rhs => rw [← List.map_id rules]
  apply List.map_congr_left
  intro rule hr
  simp only [Function.comp, id]
  rw [modChild_modChild _ _ _ _ (apiGroupsValue_ne_null f)]
  apply modChild_of_fixed
  exact apiGroupsValue_swapped f _ (fun apiGroups hv => h rules rule apiGroups rfl hr hv)

theorem roleDoc_swapped (f : Fixer) (raw : Node)
    (h : ∀ rules rule apiGroups, findChild raw "rules" = .seq rules → rule ∈ rules →
      findChild rule "apiGroups" = .seq apiGroups → Node.str f.toApiGroup ∉ apiGroups) :
    roleDoc (swapped f) (roleDoc f raw) = raw := by
  unfold roleDoc
  rw [modChild_modChild _ _ _ _ (rulesValue_ne_null f)]
  apply modChild_of_fixed
  exact rulesValue_swapped f _ h

theorem metadataValue_swapped (f : Fixer) (v : Node)
    (h : ∀ metadata, v = .map metadata →
      hasSuffix (findTextChild (.map metadata) "name") ("." ++ f.fromApiGroup) = true ∨
      hasSuffix (findTextChild (.map metadata) "name") ("." ++ f.toApiGroup) = false) :
    metadataValue (swapped f) (metadataValue f v) = v := by
  cases v <;> try rfl
  rename_i metadata
  cases hs : hasSuffix (findTextChild (.map metadata) "name") ("." ++ f.fromApiGroup) with
  | true =>
    obtain ⟨p, hp⟩ := (hasSuffix_iff _ _).1 hs
    have hne : findTextChild (.map metadata) "name" ≠ "" := by
      rw [hp]
      intro he
      have := congrArg len he
      simp [len] at this
    have hc := findTextChild_ne_empty hne
    simp only [metadataValue, hs, if_true]
    rw [hp, stripSuffix_append]
    have ht : findTextChild (.map (mapSet metadata "name" (.str (p ++ "." ++ f.toApiGroup))))
        "name" = p ++ ("." ++ f.toApiGroup) := by
      simp [findTextChild, findChild_mapSet_self, String.append_assoc]
    have hs' : hasSuffix (p ++ ("." ++ f.toApiGroup)) ("." ++ f.toApiGroup) = true :=
      (hasSuffix_iff _ _).2 ⟨p, rfl⟩
    simp only [swapped, ht, hs', if_true, stripSuffix_append, mapSet_mapSet, Node.map.injEq]
    rw [String.append_assoc, ← hp, ← hc]
    exact mapSet_findChild metadata "name" (by rw [hc]; simp)
  | false =>
    have hto := (h metadata rfl).resolve_left (by rw [hs]; simp)
    simp [metadataValue, hs, swapped, hto]

theorem specValue_swapped (f : Fixer) (v : Node)
    (h : ∀ spec, v = .map spec →
      findChild (.map spec) "group" = .str f.fromApiGroup ∨
      (findTextChild (.map spec) "group" ≠ f.fromApiGroup ∧
        findTextChild (.map spec) "group" ≠ f.toApiGroup)) :
    specValue (swapped f) (specValue f v) = v := by
  cases v <;> try rfl
  rename_i spec
  rcases h spec rfl with hg | ⟨h₁, h₂⟩
  · have ht : findTextChild (.map spec) "group" = f.fromApiGroup := by
      simp [findTextChild, hg]
    have ht' : findTextChild (.map (mapSet spec "group" (.str f.toApiGroup))) "group" =
        f.toApiGroup := by
      simp [findTextChild, findChild_mapSet_self]
    simp only [specValue, ht, if_true, swapped, ht', mapSet_mapSet, Node.map.injEq]
    rw [← hg]
    exact mapSet_findChild spec "group" (by rw [hg]; simp)
  · simp [specValue, h₁, swapped, h₂]

theorem crdDoc_swapped (f : Fixer) (raw : Node)
    (hname : ∀ metadata, findChild raw "metadata" = .map metadata →
      hasSuffix (findTextChild (.map metadata) "name") ("." ++ f.fromApiGroup) = true ∨
      hasSuffix (findTextChild (.map metadata) "name") ("." ++ f.toApiGroup) = false)
    (hgroup : ∀ spec, findChild raw "spec" = .map spec →
      findChild (.map spec) "group" = .str f.fromApiGroup ∨
      (findTextChild (.map spec) "group" ≠ f.fromApiGroup ∧
        findTextChild (.map spec) "group" ≠ f.toApiGroup)) :
    crdDoc (swapped f) (crdDoc f raw) = raw := by
  unfold crdDoc
  rw [modChild_comm (modChild raw "metadata" (metadataValue f)) "spec" "metadata"
      (specValue f) (metadataValue (swapped f)) (by decide),
    modChild_modChild _ _ _ _ (metadataValue_ne_null f),
    modChild_of_fixed raw "metadata" _ (metadataValue_swapped f _ hname),
    modChild_modChild _ _ _ _ (specValue_ne_null f)]
  exact modChild_of_fixed raw "spec" _ (specValue_swapped f _ hgroup)

/-! ## The loop of `run` on a stream that decodes cleanly -/

theorem run_docs_accepting (f : Fixer) (encode : List Node → Node → Option GoError)
    (haccept : ∀ written doc, encode written doc = none) (docs written : List Node) :
    ∃ outs, run f encode (docs.map DecodeResult.doc) written = ⟨written ++ outs, .success⟩ ∧
      List.Forall₂ (fun d o => step f d = some (o, none)) docs outs := by
  induction docs generalizing written with
  | nil => exact ⟨[], by simp [run], List.Forall₂.nil⟩
  | cons d rest ih =>
    obtain ⟨o, ho⟩ := step_total f d
    obtain ⟨outs, hrun, hall⟩ := ih (written ++ [o])
    refine ⟨o :: outs, ?_, List.Forall₂.cons ho hall⟩
    simp only [List.map_cons, run, ho, haccept, hrun, List.append_assoc, List.singleton_append]

theorem accepted_nil (f : Fixer) (encode : List Node → Node → Option GoError)
    (written : List Node) : Accepted f encode written [] [] :=
  ⟨List.Forall₂.nil, by simp⟩

theorem accepted_cons (f : Fixer) (encode : List Node → Node → Option GoError)
    (written docs outs : List Node) (d o : Node) (hs : step f d = some (o, none))
    (he : encode written o = none) (h : Accepted f encode (written ++ [o]) docs outs) :
    Accepted f encode written (d :: docs) (o :: outs) := by
  refine ⟨List.Forall₂.cons hs h.1, ?_⟩
  intro i o' hi
  cases i with
  | zero =>
    simp at hi
    subst hi
    simpa using he
  | succ n =>
    have := h.2 n o' (by simpa using hi)
    simpa using this

theorem accepted_uncons (f : Fixer) (encode : List Node → Node → Option GoError)
    (written docs outs : List Node) (d o : Node)
    (h : Accepted f encode written (d :: docs) (o :: outs)) :
    step f d = some (o, none) ∧ encode written o = none ∧
      Accepted f encode (written ++ [o]) docs outs := by
  obtain ⟨h₁, h₂⟩ := h
  cases h₁ with
  | cons hs hrest =>
    refine ⟨hs, by simpa using h₂ 0 o (by simp), hrest, ?_⟩
    intro i o' hi
    have := h₂ (i + 1) o' (by simpa using hi)
    simpa using this

/-- Over an accepted run of documents the loop just moves on. -/
theorem run_accepted (f : Fixer) (encode : List Node → Node → Option GoError)
    (docs outs written : List Node) (tail : List DecodeResult)
    (h : Accepted f encode written docs outs) :
    run f encode (docs.map DecodeResult.doc ++ tail) written =
      run f encode tail (written ++ outs) := by
  induction docs generalizing outs written with
  | nil =>
    cases h.1
    simp
  | cons d rest ih =>
    obtain ⟨h₁, h₂⟩ := id h
    cases h₁ with
    | cons hs hrest =>
      rename_i o outs'
      obtain ⟨-, he, hacc⟩ := accepted_uncons f encode written rest outs' d o h
      have hrun := ih outs' (written ++ [o]) hacc
      simp only [List.map_cons, List.cons_append, run, hs, he]
      simpa using hrun

/-- Every run is an accepted prefix followed by the end of the stream, by a
failed decode, or by a document the sink refuses. -/
theorem run_trace (f : Fixer) (encode : List Node → Node → Option GoError)
    (input : List DecodeResult) (written : List Node) :
    ∃ docs outs, Accepted f encode written docs outs ∧
      (input = docs.map DecodeResult.doc ∨
        (∃ e rest, input = docs.map DecodeResult.doc ++ DecodeResult.fail e :: rest) ∨
        (∃ d o e rest, input = docs.map DecodeResult.doc ++ DecodeResult.doc d :: rest ∧
          step f d = some (o, none) ∧ encode (written ++ outs) o = some e)) := by
  induction input generalizing written with
  | nil => exact ⟨[], [], accepted_nil f encode written, Or.inl rfl⟩
  | cons r rest ih =>
    cases r with
    | fail e => exact ⟨[], [], accepted_nil f encode written, Or.inr (Or.inl ⟨e, rest, rfl⟩)⟩
    | doc d =>
      obtain ⟨o, ho⟩ := step_total f d
      cases he : encode written o with
      | some e =>
        exact ⟨[], [], accepted_nil f encode written,
          Or.inr (Or.inr ⟨d, o, e, rest, rfl, ho, by simpa using he⟩)⟩
      | none =>
        obtain ⟨docs, outs, hacc, hcase⟩ := ih (written ++ [o])
        refine ⟨d :: docs, o :: outs, accepted_cons f encode written docs outs d o ho he hacc, ?_⟩
        rcases hcase with h | ⟨e, rest', h⟩ | ⟨d', o', e, rest', h, hs, henc⟩
        · exact Or.inl (by simp [h])
        · exact Or.inr (Or.inl ⟨e, rest', by simp [h]⟩)
        · exact Or.inr (Or.inr ⟨d', o', e, rest', by simp [h], hs, by simpa using henc⟩)

theorem run_of_clean (f : Fixer) (encode : List Node → Node → Option GoError)
    (docs outs : List Node) (h : Accepted f encode [] docs outs) :
    run f encode (docs.map DecodeResult.doc) [] = ⟨outs, .success⟩ := by
  have := run_accepted f encode docs outs [] [] h
  simpa [run] using this

theorem run_of_decode_failure (f : Fixer) (encode : List Node → Node → Option GoError)
    (docs outs : List Node) (e : GoError) (rest : List DecodeResult)
    (h : Accepted f encode [] docs outs) :
    run f encode (docs.map DecodeResult.doc ++ DecodeResult.fail e :: rest) [] =
      ⟨outs, .failure e⟩ := by
  rw [run_accepted f encode docs outs [] _ h]
  simp [run]

theorem run_of_encode_failure (f : Fixer) (encode : List Node → Node → Option GoError)
    (docs outs : List Node) (d o : Node) (e : GoError) (rest : List DecodeResult)
    (h : Accepted f encode [] docs outs) (hs : step f d = some (o, none))
    (he : encode outs o = some e) :
    run f encode (docs.map DecodeResult.doc ++ DecodeResult.doc d :: rest) [] =
      ⟨outs, .failure e⟩ := by
  rw [run_accepted f encode docs outs [] _ h]
  simp [run, hs, he]

/-- C1. On a stream of `N` documents that all decode, with a sink that accepts
every write, `run` succeeds and the sink holds exactly `N` documents, the
`i`-th being the result of `step` on the `i`-th decoded document; on the
empty stream it succeeds with nothing written. -/
theorem run_preserves_order_and_count (f : Fixer)
    (encode : List Node → Node → Option GoError)
    (haccept : ∀ written doc, encode written doc = none) (docs : List Node) :
    run f encode [] [] = ⟨[], .success⟩ ∧
    ∃ outs, run f encode (docs.map DecodeResult.doc) [] = ⟨outs, .success⟩ ∧
      outs.length = docs.length ∧
      List.Forall₂ (fun d o => step f d = some (o, none)) docs outs := by
  refine ⟨rfl, ?_⟩
  obtain ⟨outs, hrun, hall⟩ := run_docs_accepting f encode haccept docs []
  exact ⟨outs, by simpa using hrun, hall.length_eq.symm, hall⟩

theorem run_preserves_order_and_count_witness :
    (∀ written doc, acceptAll written doc = none) ∧
    run scenarioFixer acceptAll [] [] = ⟨[], .success⟩ ∧
    ∃ outs, run scenarioFixer acceptAll
        ([scenarioGeneric, scenarioOther, scenarioCrd].map DecodeResult.doc) [] =
        ⟨outs, .success⟩ ∧
      outs.length = 3 ∧
      List.Forall₂ (fun d o => step scenarioFixer d = some (o, none))
        [scenarioGeneric, scenarioOther, scenarioCrd] outs :=
  ⟨fun _ _ => rfl,
    run_preserves_order_and_count scenarioFixer acceptAll (fun _ _ => rfl)
      [scenarioGeneric, scenarioOther, scenarioCrd]⟩

/-- C2. A document that is neither a CRD nor a Role/ClusterRole and whose
top-level `apiVersion` is the string `fromApiGroup + "/" + s` comes out of
`step` with `apiVersion` equal to `toApiGroup + "/" + s`; the document is
the same mapping with that one entry overwritten, so every other top-level
entry, `kind` included, is unchanged. -/
theorem generic_rewrites_apiVersion (f : Fixer) (raw : Node) (s : String)
    (hc : ¬ isCrd raw) (hr : ¬ isRole raw)
    (hv : findChild raw "apiVersion" = .str (f.fromApiGroup ++ "/" ++ s)) :
    ∃ o doc, raw = .map o ∧ step f raw = some (doc, none) ∧
      doc = .map (mapSet o "apiVersion" (.str (f.toApiGroup ++ "/" ++ s))) ∧
      findChild doc "apiVersion" = .str (f.toApiGroup ++ "/" ++ s) ∧
      findChild doc "kind" = findChild raw "kind" ∧
      ∀ k, k ≠ "apiVersion" → findChild doc k = findChild raw k := by
  have hv' : findTextChild raw "apiVersion" = f.fromApiGroup ++ "/" ++ s := by
    simp [findTextChild, hv]
  obtain ⟨o, rfl, ho⟩ := step_generic f raw s hc hr hv'
  refine ⟨o, _, rfl, ho, rfl, findChild_mapSet_self _ _ _, ?_, ?_⟩
  · exact findChild_mapSet_ne _ _ _ _ (by decide)
  · intro k hk
    exact findChild_mapSet_ne _ _ _ _ hk

theorem generic_rewrites_apiVersion_witness :
    ¬ isCrd scenarioGeneric ∧ ¬ isRole scenarioGeneric ∧
    findChild scenarioGeneric "apiVersion" = .str ("old.example.com" ++ "/" ++ "v1") ∧
    ∃ doc, step scenarioFixer scenarioGeneric = some (doc, none) ∧
      findChild doc "apiVersion" = .str ("new.example.com" ++ "/" ++ "v1") ∧
      findChild doc "kind" = .str "Widget" := by
  obtain ⟨_, doc, _, h₁, _, h₂, h₃, _⟩ :=
    generic_rewrites_apiVersion scenarioFixer scenarioGeneric "v1"
      (by decide) (by decide) rfl
  exact ⟨by decide, by decide, rfl, doc, h₁, h₂, h₃⟩

/-- C3. A CRD document with a `metadata` mapping whose `name` is the string
`p + "." + fromApiGroup` comes out of `step` with `metadata.name` equal to
`p + "." + toApiGroup`. -/
theorem crd_rewrites_name (f : Fixer) (raw : Node) (metadata : List (String × Node))
    (p : String) (hc : isCrd raw)
    (hm : findMapChild raw "metadata" = some metadata)
    (hn : findChild (.map metadata) "name" = .str (p ++ "." ++ f.fromApiGroup)) :
    ∃ doc metadata', step f raw = some (doc, none) ∧
      findMapChild doc "metadata" = some metadata' ∧
      findChild (.map metadata') "name" = .str (p ++ "." ++ f.toApiGroup) := by
  have hn' : findTextChild (.map metadata) "name" = p ++ ("." ++ f.fromApiGroup) := by
    simp [findTextChild, hn, String.append_assoc]
  obtain ⟨o, rfl⟩ := findMapChild_is_map hm
  have h₁ := convertCrdMetadata_of_suffix f (.map o) metadata p hm hn'
  refine ⟨convertCrdSpec f (setChild (.map o) "metadata"
      (.map (mapSet metadata "name" (.str (p ++ "." ++ f.toApiGroup))))),
    mapSet metadata "name" (.str (p ++ "." ++ f.toApiGroup)), ?_, ?_,
    findChild_mapSet_self _ _ _⟩
  · rw [step_of_isCrd f _ hc]
    simp only [convertCrd, h₁]
  · simp only [findMapChild]
    rw [findChild_convertCrdSpec f _ "metadata" (by decide), findChild_setChild_self]

theorem crd_rewrites_name_witness :
    isCrd scenarioCrd ∧
    ∃ doc metadata', step scenarioFixer scenarioCrd = some (doc, none) ∧
      findMapChild doc "metadata" = some metadata' ∧
      findChild (.map metadata') "name" = .str ("widgets" ++ "." ++ "new.example.com") :=
  ⟨by decide,
    crd_rewrites_name scenarioFixer scenarioCrd
      [("name", .str "widgets.old.example.com")] "widgets" (by decide) rfl rfl⟩

/-- C4. A CRD document with a `spec` mapping whose `group` is the string
`fromApiGroup` comes out of `step` with `spec.group` equal to `toApiGroup`,
whatever `metadata` holds; and when there is no `metadata` mapping, or its
`name` does not end with `"." + fromApiGroup`, `metadata` is unchanged and
the document is the input with only `spec.group` overwritten. -/
theorem crd_rewrites_group (f : Fixer) (raw : Node) (spec : List (String × Node))
    (hc : isCrd raw) (hs : findMapChild raw "spec" = some spec)
    (hg : findChild (.map spec) "group" = .str f.fromApiGroup) :
    ∃ doc spec', step f raw = some (doc, none) ∧
      findMapChild doc "spec" = some spec' ∧
      findChild (.map spec') "group" = .str f.toApiGroup ∧
      ((∀ metadata, findMapChild raw "metadata" = some metadata →
          hasSuffix (findTextChild (.map metadata) "name") ("." ++ f.fromApiGroup) = false) →
        findChild doc "metadata" = findChild raw "metadata" ∧
        doc = setChild raw "spec" (.map (mapSet spec "group" (.str f.toApiGroup)))) := by
  have hg' : findTextChild (.map spec) "group" = f.fromApiGroup := by
    simp [findTextChild, hg]
  obtain ⟨d₁, hd₁⟩ := convertCrdMetadata_total f raw
  have hs₁ : findMapChild d₁ "spec" = some spec := by
    simp only [findMapChild] at hs ⊢
    rw [findChild_convertCrdMetadata f raw d₁ "spec" hd₁ (by decide)]
    exact hs
  obtain ⟨o₁, rfl⟩ := findMapChild_is_map hs₁
  refine ⟨convertCrdSpec f (.map o₁), mapSet spec "group" (.str f.toApiGroup), ?_, ?_,
    findChild_mapSet_self _ _ _, ?_⟩
  · rw [step_of_isCrd f _ hc]
    simp only [convertCrd, hd₁]
  · rw [convertCrdSpec_of_group f _ spec hs₁ hg']
    simp only [findMapChild, findChild_setChild_self]
  · intro hmeta
    have hraw : (Node.map o₁) = raw := by
      cases hm : findMapChild raw "metadata" with
      | none =>
        rw [convertCrdMetadata_of_none f raw hm] at hd₁
        exact (Option.some.inj hd₁).symm
      | some metadata =>
        rw [convertCrdMetadata_of_not_suffix f raw metadata hm (hmeta metadata hm)] at hd₁
        exact (Option.some.inj hd₁).symm
    rw [convertCrdSpec_of_group f _ spec hs₁ hg', hraw]
    exact ⟨findChild_setChild_ne raw "spec" "metadata" _ (by decide), rfl⟩

theorem crd_rewrites_group_witness :
    isCrd scenarioCrdOtherName ∧
    ∃ doc spec', step scenarioFixer scenarioCrdOtherName = some (doc, none) ∧
      findMapChild doc "spec" = some spec' ∧
      findChild (.map spec') "group" = .str "new.example.com" ∧
      findChild doc "metadata" = .map [("name", .str "widgets.other.com")] := by
  obtain ⟨doc, spec', h₁, h₂, h₃, h₄⟩ :=
    crd_rewrites_group scenarioFixer scenarioCrdOtherName
      [("group", .str "old.example.com")] (by decide) rfl rfl
  refine ⟨by decide, doc, spec', h₁, h₂, h₃, ?_⟩
  have h₅ := (h₄ (by
    intro metadata hm
    cases hm
    decide)).1
  rw [h₅]
  rfl

/-- C5. For a Role/ClusterRole document with a `rules` sequence, `step`
leaves a `rules` sequence of the same length; for every element with an
`apiGroups` sequence, the element at the same index has an `apiGroups`
sequence of the same length in which, at every index, an entry that was the
string `fromApiGroup` is now `toApiGroup` and any other entry is the input
entry. -/
theorem role_rewrites_apiGroups (f : Fixer) (raw : Node) (rules : List Node)
    (hr : isRole raw) (hrules : findSequenceChild raw "rules" = some rules) :
    ∃ doc rules', step f raw = some (doc, none) ∧
      findSequenceChild doc "rules" = some rules' ∧ rules'.length = rules.length ∧
      ∀ (i : Nat) (rule : Node) (apiGroups : List Node), rules[i]? = some rule →
        findSequenceChild rule "apiGroups" = some apiGroups →
        ∃ (rule' : Node) (apiGroups' : List Node), rules'[i]? = some rule' ∧
          findSequenceChild rule' "apiGroups" = some apiGroups' ∧
          apiGroups'.length = apiGroups.length ∧
          ∀ (j : Nat) (entry : Node), apiGroups[j]? = some entry →
            (entry = Node.str f.fromApiGroup →
              apiGroups'[j]? = some (Node.str f.toApiGroup)) ∧
            (entry ≠ Node.str f.fromApiGroup → apiGroups'[j]? = some entry) := by
  obtain ⟨o, rfl⟩ := findSequenceChild_is_map hrules
  refine ⟨setChild (.map o) "rules" (.seq (rules.map (convertRule f))),
    rules.map (convertRule f), ?_, ?_, by simp, ?_⟩
  · rw [step_of_isRole f _ hr, convertRole_of_some f _ rules hrules]
  · simp only [findSequenceChild, findChild_setChild_self]
  · intro i rule apiGroups hi hag
    obtain ⟨o', rfl⟩ := findSequenceChild_is_map hag
    refine ⟨convertRule f (.map o'), apiGroups.map (rewriteEntry f), ?_, ?_, by simp, ?_⟩
    · simp [List.getElem?_map, hi]
    · rw [convertRule_of_some f _ apiGroups hag]
      simp only [findSequenceChild, findChild_setChild_self]
    · intro j entry hj
      constructor
      · intro he
        subst he
        simp [List.getElem?_map, hj, rewriteEntry_of_eq]
      · intro he
        simp [List.getElem?_map, hj, rewriteEntry_of_ne f entry he]

theorem role_rewrites_apiGroups_witness :
    isRole scenarioRole ∧
    ∃ rule' apiGroups', step scenarioFixer scenarioRole ≠ none ∧
      findSequenceChild rule' "apiGroups" = some apiGroups' ∧
      apiGroups'.length = 2 ∧
      apiGroups'[0]? = some (.str "new.example.com") ∧
      apiGroups'[1]? = some (.str "") := by
  obtain ⟨doc, rules', h₁, _, _, h₂⟩ :=
    role_rewrites_apiGroups scenarioFixer scenarioRole
      [.map [("apiGroups", .seq [.str "old.example.com", .str ""]),
          ("verbs", .seq [.str "get"])],
        .map [("verbs", .seq [.str "list"])]]
      (by decide) rfl
  obtain ⟨rule', apiGroups', _, h₃, h₄, h₅⟩ :=
    h₂ 0 _ [.str "old.example.com", .str ""] rfl rfl
  refine ⟨by decide, rule', apiGroups', by rw [h₁]; simp, h₃, h₄, ?_, ?_⟩
  · exact (h₅ 0 (.str "old.example.com") rfl).1 rfl
  · exact (h₅ 1 (.str "") rfl).2 (by
      intro h
      exact absurd (Node.str.inj h) (by decide))

/-- C6. A document that satisfies none of the three rule conditions (not a
CRD, not a Role/ClusterRole, `apiVersion` not starting with
`fromApiGroup + "/"`) comes out of `step` equal to the input, with no error
and no panic. -/
theorem pass_through_identity (f : Fixer) (raw : Node)
    (hc : ¬ isCrd raw) (hr : ¬ isRole raw)
    (hp : hasPrefix (findTextChild raw "apiVersion") (f.fromApiGroup ++ "/") = false) :
    step f raw = some (raw, none) := by
  simp [step, hc, hr, hp]

theorem pass_through_identity_witness :
    ¬ isCrd scenarioOther ∧ ¬ isRole scenarioOther ∧
    hasPrefix (findTextChild scenarioOther "apiVersion")
      (scenarioFixer.fromApiGroup ++ "/") = false ∧
    step scenarioFixer scenarioOther = some (scenarioOther, none) :=
  ⟨by decide, by decide, by decide,
    pass_through_identity scenarioFixer scenarioOther (by decide) (by decide) (by decide)⟩

/-- C7. `run` ends with the error `e` exactly when, after a prefix of
documents that were all rewritten and accepted, either the next decode fails
with `e` or the sink refuses the next rewritten document with `e`; that first
failure is the result, whatever follows it in the stream, and only the
prefix has been written.  `run` ends with success exactly when the stream
ends after such a prefix.  It never panics, and `convertCrd`, `convertRole`
and `step` never return an error. -/
theorem run_fails_iff_first_failure (f : Fixer)
    (encode : List Node → Node → Option GoError) (input : List DecodeResult) :
    (∀ e, (run f encode input []).outcome = .failure e ↔
      ∃ docs outs rest, Accepted f encode [] docs outs ∧
        (input = docs.map DecodeResult.doc ++ DecodeResult.fail e :: rest ∨
          ∃ d o, input = docs.map DecodeResult.doc ++ DecodeResult.doc d :: rest ∧
            step f d = some (o, none) ∧ encode outs o = some e)) ∧
    ((run f encode input []).outcome = .success ↔
      ∃ docs outs, Accepted f encode [] docs outs ∧ input = docs.map DecodeResult.doc) ∧
    (∀ docs outs e rest, Accepted f encode [] docs outs →
      run f encode (docs.map DecodeResult.doc ++ DecodeResult.fail e :: rest) [] =
        ⟨outs, .failure e⟩) ∧
    (∀ docs outs d o e rest, Accepted f encode [] docs outs →
      step f d = some (o, none) → encode outs o = some e →
      run f encode (docs.map DecodeResult.doc ++ DecodeResult.doc d :: rest) [] =
        ⟨outs, .failure e⟩) ∧
    (run f encode input []).outcome ≠ .panic ∧
    (∀ raw, (∀ r, convertCrd f raw = some r → r.2 = none) ∧ (convertRole f raw).2 = none ∧
      ∀ r, step f raw = some r → r.2 = none) := by
  obtain ⟨docs, outs, hacc, hcase⟩ := run_trace f encode input []
  simp only [List.nil_append] at hcase
  refine ⟨?_, ?_, ?_, ?_, ?_, ?_⟩
  · intro e
    constructor
    · intro h
      rcases hcase with hi | ⟨e', rest, hi⟩ | ⟨d, o, e', rest, hi, hs, he⟩
      · rw [hi, run_of_clean f encode docs outs hacc] at h
        cases h
      · rw [hi, run_of_decode_failure f encode docs outs e' rest hacc] at h
        cases h
        exact ⟨docs, outs, rest, hacc, Or.inl hi⟩
      · rw [hi, run_of_encode_failure f encode docs outs d o e' rest hacc hs he] at h
        cases h
        exact ⟨docs, outs, rest, hacc, Or.inr ⟨d, o, hi, hs, he⟩⟩
    · rintro ⟨docs', outs', rest, hacc', hi | ⟨d, o, hi, hs, he⟩⟩
      · rw [hi, run_of_decode_failure f encode docs' outs' e rest hacc']
      · rw [hi, run_of_encode_failure f encode docs' outs' d o e rest hacc' hs he]
  · constructor
    · intro h
      rcases hcase with hi | ⟨e', rest, hi⟩ | ⟨d, o, e', rest, hi, hs, he⟩
      · exact ⟨docs, outs, hacc, hi⟩
      · rw [hi, run_of_decode_failure f encode docs outs e' rest hacc] at h
        cases h
      · rw [hi, run_of_encode_failure f encode docs outs d o e' rest hacc hs he] at h
        cases h
    · rintro ⟨docs', outs', hacc', hi⟩
      rw [hi, run_of_clean f encode docs' outs' hacc']
  · intro docs' outs' e rest hacc'
    exact run_of_decode_failure f encode docs' outs' e rest hacc'
  · intro docs' outs' d o e rest hacc' hs he
    exact run_of_encode_failure f encode docs' outs' d o e rest hacc' hs he
  · intro h
    rcases hcase with hi | ⟨e', rest, hi⟩ | ⟨d, o, e', rest, hi, hs, he⟩
    · rw [hi, run_of_clean f encode docs outs hacc] at h
      cases h
    · rw [hi, run_of_decode_failure f encode docs outs e' rest hacc] at h
      cases h
    · rw [hi, run_of_encode_failure f encode docs outs d o e' rest hacc hs he] at h
      cases h
  · intro raw
    refine ⟨?_, convertRole_snd f raw, ?_⟩
    · intro r hr
      obtain ⟨d, hd⟩ := convertCrd_total f raw
      rw [hd] at hr
      cases hr
      rfl
    · intro r hr
      obtain ⟨d, hd⟩ := step_total f raw
      rw [hd] at hr
      cases hr
      rfl

/-- C10. Exactly one branch of `step` runs, chosen from the `apiVersion` and
`kind` of the decoded document: a CRD gets `convertCrd` alone, a Role or
ClusterRole gets `convertRole` alone (the two conditions exclude each other),
and only a document that is neither gets the generic rewrite of
`apiVersion`, or nothing.  For a CRD or Role/ClusterRole the top-level
`apiVersion` and `kind` come out as they went in, whether or not
`apiVersion` starts with `fromApiGroup + "/"`. -/
theorem rule_precedence (f : Fixer) (raw : Node) :
    ∃ doc, step f raw = some (doc, none) ∧
      ¬ (isCrd raw ∧ isRole raw) ∧
      (isCrd raw → convertCrd f raw = some (doc, none) ∧
        findChild doc "apiVersion" = findChild raw "apiVersion" ∧
        findChild doc "kind" = findChild raw "kind") ∧
      (isRole raw → convertRole f raw = (doc, none) ∧
        findChild doc "apiVersion" = findChild raw "apiVersion" ∧
        findChild doc "kind" = findChild raw "kind") ∧
      (¬ isCrd raw → ¬ isRole raw →
        (∀ t, findTextChild raw "apiVersion" = f.fromApiGroup ++ "/" ++ t →
          doc = setChild raw "apiVersion" (.str (f.toApiGroup ++ "/" ++ t))) ∧
        (hasPrefix (findTextChild raw "apiVersion") (f.fromApiGroup ++ "/") = false →
          doc = raw)) := by
  have hex : ¬ (isCrd raw ∧ isRole raw) := fun h => isRole_not_isCrd raw h.2 h.1
  by_cases hc : isCrd raw
  · refine ⟨crdDoc f raw, step_crd f raw hc, hex, ?_, ?_, ?_⟩
    · intro _
      exact ⟨by rw [← step_of_isCrd f raw hc, step_crd f raw hc],
        findChild_crdDoc f raw _ (by decide) (by decide),
        findChild_crdDoc f raw _ (by decide) (by decide)⟩
    · intro hr; exact absurd hc (isRole_not_isCrd raw hr)
    · intro h; exact absurd hc h
  · by_cases hr : isRole raw
    · refine ⟨roleDoc f raw, step_role f raw hr, hex, ?_, ?_, ?_⟩
      · intro h; exact absurd h hc
      · intro _
        exact ⟨by rw [convertRole_eq]; rfl, findChild_roleDoc f raw _ (by decide),
          findChild_roleDoc f raw _ (by decide)⟩
      · intro _ h; exact absurd hr h
    · obtain ⟨doc, hdoc⟩ := step_total f raw
      refine ⟨doc, hdoc, hex, ?_, ?_, ?_⟩
      · intro h; exact absurd h hc
      · intro h; exact absurd h hr
      · intro _ _
        constructor
        · intro t ht
          obtain ⟨o, rfl, ho⟩ := step_generic f raw t hc hr ht
          rw [ho] at hdoc
          cases hdoc
          rfl
        · intro hp
          rw [step_of_no_rule f raw hc hr hp] at hdoc
          cases hdoc
          rfl

/-- C8, as stated, fails.  With `fromApiGroup = "example.com"` and
`toApiGroup = "new.example.com"` the CRD named `widgets.example.com` becomes
`widgets.new.example.com`, and a second pass in the same direction renames it
again, to `widgets.new.new.example.com`. -/
theorem second_pass_renames_crd_again :
    isCrd nestedCrd ∧ nestedFixer.toApiGroup ≠ nestedFixer.fromApiGroup ∧
    step nestedFixer nestedCrd = some (nestedCrdOnce, none) ∧
    step nestedFixer nestedCrdOnce = some (nestedCrdTwice, none) ∧
    nestedCrdTwice ≠ nestedCrdOnce :=
  ⟨by decide, by decide, by rfl, by rfl,
    fun h => absurd (congrArg crdName h) (by decide)⟩

/-- C8, amended.  Let `once` be what `step` makes of a document.  If the
document is a Role or ClusterRole, a second `step` with the same groups
returns `once`.  If it is a CRD, a second `step` returns `once` whenever
the `metadata.name` of `once` does not end with `"." + fromApiGroup`; and
when it does end so and the two groups differ, the second `step` does not
return `once`. -/
theorem second_pass_same_direction (f : Fixer) (raw once : Node)
    (h : step f raw = some (once, none)) :
    (isRole raw → step f once = some (once, none)) ∧
    (isCrd raw → hasSuffix (crdName once) ("." ++ f.fromApiGroup) = false →
      step f once = some (once, none)) ∧
    (isCrd raw → f.toApiGroup ≠ f.fromApiGroup →
      hasSuffix (crdName once) ("." ++ f.fromApiGroup) = true →
      step f once ≠ some (once, none)) := by
  refine ⟨?_, ?_, ?_⟩
  · intro hr
    rw [step_role f raw hr] at h
    cases h
    rw [step_role f _ (isRole_roleDoc f raw hr), roleDoc_idem]
  · intro hc hs
    rw [step_crd f raw hc] at h
    cases h
    rw [step_crd f _ (isCrd_crdDoc f raw hc), crdDoc_idem f raw hs]
  · intro hc hne hs
    rw [step_crd f raw hc] at h
    cases h
    rw [step_crd f _ (isCrd_crdDoc f raw hc)]
    intro heq
    have := congrArg Prod.fst (Option.some.inj heq)
    exact crdDoc_not_idem f raw hne hs this

theorem second_pass_same_direction_witness :
    step nestedFixer nestedCrd = some (nestedCrdOnce, none) ∧
    isCrd nestedCrd ∧ nestedFixer.toApiGroup ≠ nestedFixer.fromApiGroup ∧
    hasSuffix (crdName nestedCrdOnce) ("." ++ nestedFixer.fromApiGroup) = true ∧
    step nestedFixer nestedCrdOnce ≠ some (nestedCrdOnce, none) :=
  ⟨rfl, by decide, by decide, by decide,
    (second_pass_same_direction nestedFixer nestedCrd nestedCrdOnce rfl).2.2
      (by decide) (by decide) (by decide)⟩

/-- C9, as stated, fails.  With `fromApiGroup = "old.example.com"` and
`toApiGroup = "new.example.com"`, a Role whose `apiGroups` is
`[old.example.com, new.example.com]` becomes
`[new.example.com, new.example.com]`, and the pass with the groups swapped
gives `[old.example.com, old.example.com]`, not the original. -/
theorem swapped_pass_does_not_restore_role :
    isRole mixedRole ∧ scenarioFixer.fromApiGroup ≠ scenarioFixer.toApiGroup ∧
    step scenarioFixer mixedRole = some (mixedRoleOnce, none) ∧
    step (swapped scenarioFixer) mixedRoleOnce = some (mixedRoleBack, none) ∧
    mixedRoleBack ≠ mixedRole :=
  ⟨by decide, by decide, by rfl, by rfl,
    fun h => absurd
      (congrArg (fun d =>
        match findSequenceChild d "rules" with
        | some [rule] =>
          (match findSequenceChild rule "apiGroups" with
          | some [_, .str s] => s
          | _ => "")
        | _ => "") h)
      (by decide)⟩

/-- C9, amended.  Let `once` be what `step` makes of a document.  The `step`
with the groups swapped returns the original document from `once`: for a
Role or ClusterRole, when no entry of an `apiGroups` sequence of an element
of `rules` is the string `toApiGroup`; for a CRD, when `metadata.name` ends
with `"." + fromApiGroup` or does not end with `"." + toApiGroup`, and
`spec.group` is the string `fromApiGroup` or else reads as a text that is
neither `fromApiGroup` nor `toApiGroup`. -/
theorem swapped_pass_restores (f : Fixer) (raw once : Node)
    (h : step f raw = some (once, none)) :
    (isRole raw →
      (∀ rules rule apiGroups, findSequenceChild raw "rules" = some rules → rule ∈ rules →
        findSequenceChild rule "apiGroups" = some apiGroups →
        Node.str f.toApiGroup ∉ apiGroups) →
      step (swapped f) once = some (raw, none)) ∧
    (isCrd raw →
      (∀ metadata, findMapChild raw "metadata" = some metadata →
        hasSuffix (findTextChild (.map metadata) "name") ("." ++ f.fromApiGroup) = true ∨
        hasSuffix (findTextChild (.map metadata) "name") ("." ++ f.toApiGroup) = false) →
      (∀ spec, findMapChild raw "spec" = some spec →
        findChild (.map spec) "group" = .str f.fromApiGroup ∨
        (findTextChild (.map spec) "group" ≠ f.fromApiGroup ∧
          findTextChild (.map spec) "group" ≠ f.toApiGroup)) →
      step (swapped f) once = some (raw, none)) := by
  constructor
  · intro hr hgroups
    rw [step_role f raw hr] at h
    cases h
    rw [step_role _ _ (isRole_roleDoc f raw hr), roleDoc_swapped f raw]
    intro rules rule apiGroups h₁ hmem h₂
    exact hgroups rules rule apiGroups (by simp [findSequenceChild, h₁]) hmem
      (by simp [findSequenceChild, h₂])
  · intro hc hname hgroup
    rw [step_crd f raw hc] at h
    cases h
    rw [step_crd _ _ (isCrd_crdDoc f raw hc), crdDoc_swapped f raw]
    · intro metadata hm
      exact hname metadata (by simp [findMapChild, hm])
    · intro spec hs
      exact hgroup spec (by simp [findMapChild, hs])

theorem swapped_pass_restores_witness :
    step scenarioFixer scenarioCrd ≠ none ∧ isCrd scenarioCrd ∧
    ∃ once, step scenarioFixer scenarioCrd = some (once, none) ∧
      step (swapped scenarioFixer) once = some (scenarioCrd, none) := by
  obtain ⟨once, h⟩ := step_total scenarioFixer scenarioCrd
  refine ⟨by rw [h]; simp, by decide, once, h, ?_⟩
  refine (swapped_pass_restores scenarioFixer scenarioCrd once h).2 (by decide) ?_ ?_
  · intro metadata hm
    cases hm
    exact Or.inl (by decide)
  · intro spec hs
    cases hs
    exact Or.inl rfl

/-! ## Documents that are not mappings, and the prefix test -/

theorem findChild_of_not_map (raw : Node) (name : String) (h : ∀ o, raw ≠ .map o) :
    findChild raw name = .null := by
  cases raw <;> first | rfl | exact absurd rfl (h _)

theorem hasPrefix_of_short (s pre : String) (h : len s < len pre) : hasPrefix s pre = false := by
  simp [hasPrefix, Nat.not_le.2 h]

theorem hasPrefix_empty_slash (g : String) : hasPrefix "" (g ++ "/") = false :=
  hasPrefix_of_short _ _ (by simp [len])

theorem hasPrefix_self_slash (g : String) : hasPrefix g (g ++ "/") = false :=
  hasPrefix_of_short _ _ (by simp [len])

theorem hasPrefix_other_char (g rest : String) (c : Char) (hc : c ≠ '/') :
    hasPrefix (g ++ String.singleton c ++ rest) (g ++ "/") = false := by
  cases h : hasPrefix (g ++ String.singleton c ++ rest) (g ++ "/") with
  | false => rfl
  | true =>
    obtain ⟨t, ht⟩ := (hasPrefix_iff _ _).1 h
    have := congrArg String.data ht
    simp only [String.data_append, List.append_assoc, List.append_cancel_left_eq] at this
    simp at this
    exact absurd this.1 hc

/-- C11. For a top-level document that is not a string-keyed mapping, the
`apiVersion` and `kind` lookups give the empty string, none of the three
branch conditions holds whatever the two groups are, and `step` returns the
document itself without panic or error; `run` hands that same document to
the sink. -/
theorem non_mapping_passes_through (f : Fixer) (raw : Node) (h : ∀ o, raw ≠ .map o) :
    findTextChild raw "apiVersion" = "" ∧ findTextChild raw "kind" = "" ∧
    ¬ isCrd raw ∧ ¬ isRole raw ∧
    hasPrefix (findTextChild raw "apiVersion") (f.fromApiGroup ++ "/") = false ∧
    step f raw = some (raw, none) ∧
    ∀ (encode : List Node → Node → Option GoError) (written : List Node),
      encode written raw = none →
      run f encode [DecodeResult.doc raw] written = ⟨written ++ [raw], .success⟩ := by
  have hv : findTextChild raw "apiVersion" = "" := by
    simp [findTextChild, findChild_of_not_map raw _ h]
  have hk : findTextChild raw "kind" = "" := by
    simp [findTextChild, findChild_of_not_map raw _ h]
  have hc : ¬ isCrd raw := by
    intro hc
    have := hc.1
    rw [hv] at this
    exact absurd this (by decide)
  have hr : ¬ isRole raw := by
    intro hr
    have := hr.1
    rw [hv] at this
    exact absurd this (by decide)
  have hp : hasPrefix (findTextChild raw "apiVersion") (f.fromApiGroup ++ "/") = false := by
    rw [hv]
    exact hasPrefix_empty_slash _
  have hs := step_of_no_rule f raw hc hr hp
  refine ⟨hv, hk, hc, hr, hp, hs, ?_⟩
  intro encode written he
  simp [run, hs, he]

theorem non_mapping_passes_through_witness :
    (∀ o, anymapDoc ≠ .map o) ∧
    step scenarioFixer anymapDoc = some (anymapDoc, none) ∧
    run scenarioFixer acceptAll [DecodeResult.doc anymapDoc] [] = ⟨[anymapDoc], .success⟩ := by
  have h : ∀ o, anymapDoc ≠ .map o := fun o e => by cases e
  obtain ⟨_, _, _, _, _, h₁, h₂⟩ := non_mapping_passes_through scenarioFixer anymapDoc h
  exact ⟨h, h₁, h₂ acceptAll [] rfl⟩

/-- C12. For a document that is neither a CRD nor a Role/ClusterRole: when
`apiVersion` is `fromApiGroup` itself, or `fromApiGroup` followed by a
character other than `/`, `step` returns the document unchanged; when
`apiVersion` is the string `fromApiGroup + "/"`, `step` overwrites it with
`toApiGroup + "/"`.  The test is an exact comparison of characters: it holds
exactly when `apiVersion` is `fromApiGroup + "/" + t` for some `t`, and when
it does not hold the document is unchanged. -/
theorem generic_prefix_must_be_full (f : Fixer) (raw : Node)
    (hc : ¬ isCrd raw) (hr : ¬ isRole raw) :
    (findTextChild raw "apiVersion" = f.fromApiGroup → step f raw = some (raw, none)) ∧
    (∀ (c : Char) (rest : String), c ≠ '/' →
      findTextChild raw "apiVersion" = f.fromApiGroup ++ String.singleton c ++ rest →
      step f raw = some (raw, none)) ∧
    (findChild raw "apiVersion" = .str (f.fromApiGroup ++ "/") →
      ∃ o, raw = .map o ∧
        step f raw = some (.map (mapSet o "apiVersion" (.str (f.toApiGroup ++ "/"))), none)) ∧
    (hasPrefix (findTextChild raw "apiVersion") (f.fromApiGroup ++ "/") = true ↔
      ∃ t, findTextChild raw "apiVersion" = f.fromApiGroup ++ "/" ++ t) ∧
    ((∀ t, findTextChild raw "apiVersion" ≠ f.fromApiGroup ++ "/" ++ t) →
      step f raw = some (raw, none)) := by
  refine ⟨?_, ?_, ?_, hasPrefix_iff _ _, ?_⟩
  · intro h
    exact step_of_no_rule f raw hc hr (by rw [h]; exact hasPrefix_self_slash _)
  · intro c rest hne h
    exact step_of_no_rule f raw hc hr (by rw [h]; exact hasPrefix_other_char _ _ c hne)
  · intro h
    have hv : findTextChild raw "apiVersion" = f.fromApiGroup ++ "/" ++ "" := by
      simp [findTextChild, h]
    obtain ⟨o, ho, hs⟩ := step_generic f raw "" hc hr hv
    exact ⟨o, ho, by simpa using hs⟩
  · intro h
    cases hp : hasPrefix (findTextChild raw "apiVersion") (f.fromApiGroup ++ "/") with
    | false => exact step_of_no_rule f raw hc hr hp
    | true =>
      obtain ⟨t, ht⟩ := (hasPrefix_iff _ _).1 hp
      exact absurd ht (h t)

theorem generic_prefix_must_be_full_witness :
    ¬ isCrd upperCaseDoc ∧ ¬ isRole upperCaseDoc ∧
    step scenarioFixer upperCaseDoc = some (upperCaseDoc, none) ∧
    ¬ isCrd emptyVersionDoc ∧ ¬ isRole emptyVersionDoc ∧
    ∃ o, emptyVersionDoc = .map o ∧
      step scenarioFixer emptyVersionDoc =
        some (.map (mapSet o "apiVersion" (.str ("new.example.com" ++ "/"))), none) := by
  refine ⟨by decide, by decide, ?_, by decide, by decide, ?_⟩
  · refine (generic_prefix_must_be_full scenarioFixer upperCaseDoc
      (by decide) (by decide)).2.2.2.2 ?_
    intro t ht
    have h := ((generic_prefix_must_be_full scenarioFixer upperCaseDoc (by decide)
      (by decide)).2.2.2.1).2 ⟨t, ht⟩
    exact absurd h (by decide)
  · exact (generic_prefix_must_be_full scenarioFixer emptyVersionDoc
      (by decide) (by decide)).2.2.1 rfl

/-! ## What `convertCrd` can change -/

theorem findChild_of_suffix (node : Node) (k g : String)
    (h : hasSuffix (findTextChild node k) ("." ++ g) = true) :
    ∃ p, findTextChild node k = p ++ ("." ++ g) ∧ findChild node k = .str (p ++ "." ++ g) := by
  obtain ⟨p, hp⟩ := (hasSuffix_iff _ _).1 h
  have hne : findTextChild node k ≠ "" := by
    rw [hp]
    intro he
    have := congrArg len he
    simp [len] at this
  refine ⟨p, hp, ?_⟩
  rw [findTextChild_ne_empty hne, hp, String.append_assoc]

theorem findChild_of_text_eq (node : Node) (k g : String) (hg : g ≠ "")
    (h : findTextChild node k = g) : findChild node k = .str g := by
  have hne : findTextChild node k ≠ "" := by rw [h]; exact hg
  rw [findTextChild_ne_empty hne, h]

theorem findMapChild_eq_none {node : Node} {name : String}
    (h : findMapChild node name = none) (g : Node → Node)
    (hg : ∀ v, (∀ m, v ≠ .map m) → g v = v) :
    g (findChild node name) = findChild node name := by
  apply hg
  intro m hm
  simp [findMapChild, hm] at h

theorem metadataValue_of_not_map (f : Fixer) (v : Node) (h : ∀ m, v ≠ .map m) :
    metadataValue f v = v := by
  cases v <;> first | rfl | exact absurd rfl (h _)

theorem specValue_of_not_map (f : Fixer) (v : Node) (h : ∀ m, v ≠ .map m) :
    specValue f v = v := by
  cases v <;> first | rfl | exact absurd rfl (h _)

theorem keys_mapSet_of_present (o : List (String × Node)) (k : String) (v : Node)
    (h : findChild (.map o) k ≠ .null) : (mapSet o k v).map Prod.fst = o.map Prod.fst := by
  induction o with
  | nil => simp [findChild] at h
  | cons kv rest ih =>
    obtain ⟨k', v'⟩ := kv
    by_cases h₁ : k' = k
    · simp [mapSet, h₁]
    · have h₂ : findChild (.map rest) k ≠ .null := by simpa [findChild, h₁] using h
      simp [mapSet, h₁, ih h₂]

/-- A slot update keeps the keys of a mapping, in their order. -/
theorem modChild_keys (o : List (String × Node)) (k : String) (g : Node → Node) :
    ∃ o', modChild (.map o) k g = .map o' ∧ o'.map Prod.fst = o.map Prod.fst := by
  by_cases h : findChild (.map o) k = .null
  · exact ⟨o, modChild_of_null _ k g h, rfl⟩
  · exact ⟨mapSet o k (g (findChild (.map o) k)), modChild_of_ne_null _ k g h,
      keys_mapSet_of_present o k _ h⟩

theorem isCrd_is_map (raw : Node) (h : isCrd raw) : ∃ o, raw = .map o := by
  apply findChild_ne_null_is_map raw "apiVersion"
  have hne : findTextChild raw "apiVersion" ≠ "" := by
    rw [h.1]; decide
  rw [findTextChild_ne_empty hne]
  simp

theorem isRole_is_map (raw : Node) (h : isRole raw) : ∃ o, raw = .map o := by
  apply findChild_ne_null_is_map raw "apiVersion"
  have hne : findTextChild raw "apiVersion" ≠ "" := by
    rw [h.1]; decide
  rw [findTextChild_ne_empty hne]
  simp

/-- What `step` does to a CRD document, for any two groups.  It changes at
most the `name` entry of the `metadata` mapping and the `group` entry of the
`spec` mapping.  `group` is overwritten when it reads as the text
`fromApiGroup`, where a missing or non-string `group` reads as `""`. -/
theorem crd_slots (f : Fixer) (raw : Node) (hc : isCrd raw) :
    ∃ doc, step f raw = some (doc, none) ∧
      (∃ o o', raw = .map o ∧ doc = .map o' ∧ o'.map Prod.fst = o.map Prod.fst) ∧
      (∀ k, k ≠ "metadata" → k ≠ "spec" → findChild doc k = findChild raw k) ∧
      (findMapChild raw "metadata" = none →
        findChild doc "metadata" = findChild raw "metadata") ∧
      (∀ metadata, findMapChild raw "metadata" = some metadata →
        findChild doc "metadata" = .map metadata ∨
        ∃ p, findChild (.map metadata) "name" = .str (p ++ "." ++ f.fromApiGroup) ∧
          findChild doc "metadata" =
            .map (mapSet metadata "name" (.str (p ++ "." ++ f.toApiGroup)))) ∧
      (findMapChild raw "spec" = none → findChild doc "spec" = findChild raw "spec") ∧
      (∀ spec, findMapChild raw "spec" = some spec →
        findChild doc "spec" = .map spec ∨
        (findTextChild (.map spec) "group" = f.fromApiGroup ∧
          (f.fromApiGroup ≠ "" → findChild (.map spec) "group" = .str f.fromApiGroup) ∧
          findChild doc "spec" = .map (mapSet spec "group" (.str f.toApiGroup)))) ∧
      ((∀ metadata, findMapChild raw "metadata" = some metadata →
          hasSuffix (findTextChild (.map metadata) "name") ("." ++ f.fromApiGroup) = false) →
        (∀ spec, findMapChild raw "spec" = some spec →
          findTextChild (.map spec) "group" ≠ f.fromApiGroup) →
        doc = raw) ∧
      (f.fromApiGroup ≠ "" →
        (∀ metadata p, findMapChild raw "metadata" = some metadata →
          findChild (.map metadata) "name" ≠ .str (p ++ "." ++ f.fromApiGroup)) →
        (∀ spec, findMapChild raw "spec" = some spec →
          findChild (.map spec) "group" ≠ .str f.fromApiGroup) →
        doc = raw) := by
  have hunchanged : (∀ metadata, findMapChild raw "metadata" = some metadata →
        hasSuffix (findTextChild (.map metadata) "name") ("." ++ f.fromApiGroup) = false) →
      (∀ spec, findMapChild raw "spec" = some spec →
        findTextChild (.map spec) "group" ≠ f.fromApiGroup) →
      crdDoc f raw = raw := by
    intro hm hs
    have h₁ : modChild raw "metadata" (metadataValue f) = raw := by
      apply modChild_of_fixed
      cases hv : findChild raw "metadata" <;> try rfl
      rename_i metadata
      simp [metadataValue, hm metadata (by simp [findMapChild, hv])]
    have h₂ : modChild raw "spec" (specValue f) = raw := by
      apply modChild_of_fixed
      cases hv : findChild raw "spec" <;> try rfl
      rename_i spec
      simp [specValue, hs spec (by simp [findMapChild, hv])]
    unfold crdDoc
    rw [h₁, h₂]
  refine ⟨crdDoc f raw, step_crd f raw hc, ?_, ?_, ?_, ?_, ?_, ?_, hunchanged, ?_⟩
  · obtain ⟨o, rfl⟩ := isCrd_is_map raw hc
    obtain ⟨o₁, h₁, hk₁⟩ := modChild_keys o "metadata" (metadataValue f)
    obtain ⟨o₂, h₂, hk₂⟩ := modChild_keys o₁ "spec" (specValue f)
    exact ⟨o, o₂, rfl, by unfold crdDoc; rw [h₁, h₂], by rw [hk₂, hk₁]⟩
  · intro k h₁ h₂
    exact findChild_crdDoc f raw k h₁ h₂
  · intro h
    rw [findChild_crdDoc_metadata]
    exact findMapChild_eq_none h _ (metadataValue_of_not_map f)
  · intro metadata h
    rw [findChild_crdDoc_metadata, findMapChild_eq_some h]
    cases hs : hasSuffix (findTextChild (.map metadata) "name") ("." ++ f.fromApiGroup) with
    | false => exact Or.inl (by simp [metadataValue, hs])
    | true =>
      obtain ⟨p, hp, hch⟩ := findChild_of_suffix _ _ _ hs
      refine Or.inr ⟨p, hch, ?_⟩
      simp only [metadataValue, hs, if_true]
      rw [hp, stripSuffix_append]
  · intro h
    rw [findChild_crdDoc_spec]
    exact findMapChild_eq_none h _ (specValue_of_not_map f)
  · intro spec h
    rw [findChild_crdDoc_spec, findMapChild_eq_some h]
    by_cases hg : findTextChild (.map spec) "group" = f.fromApiGroup
    · exact Or.inr ⟨hg, fun hne => findChild_of_text_eq _ _ _ hne hg, by simp [specValue, hg]⟩
    · exact Or.inl (by simp [specValue, hg])
  · intro hne hm hs
    apply hunchanged
    · intro metadata h
      cases hsuf : hasSuffix (findTextChild (.map metadata) "name")
          ("." ++ f.fromApiGroup) with
      | false => rfl
      | true =>
        obtain ⟨p, -, hch⟩ := findChild_of_suffix _ _ _ hsuf
        exact absurd hch (hm metadata p h)
    · intro spec h hg
      exact hs spec h (findChild_of_text_eq _ _ _ hne hg)

/-- C13. For a CRD document and a non-empty `fromApiGroup`, `step` succeeds
without error and changes at most the value of `metadata.name` and the value
of `spec.group`: the top-level keys are the same, every top-level key other
than `metadata` and `spec` reads as before, and a `metadata` or `spec` that
is not a mapping is left as it is.  `name` is overwritten only if it is a
string `p + "." + fromApiGroup`, and then with `p + "." + toApiGroup`;
`group` is overwritten only if it is the string `fromApiGroup`, and then
with `toApiGroup`.  When no `metadata` mapping has such a `name` and no
`spec` mapping has such a `group`, the document is unchanged. -/
theorem crd_frame (f : Fixer) (raw : Node) (hc : isCrd raw)
    (hfrom : f.fromApiGroup ≠ "") :
    ∃ doc, step f raw = some (doc, none) ∧
      (∃ o o', raw = .map o ∧ doc = .map o' ∧ o'.map Prod.fst = o.map Prod.fst) ∧
      (∀ k, k ≠ "metadata" → k ≠ "spec" → findChild doc k = findChild raw k) ∧
      (findMapChild raw "metadata" = none →
        findChild doc "metadata" = findChild raw "metadata") ∧
      (∀ metadata, findMapChild raw "metadata" = some metadata →
        findChild doc "metadata" = .map metadata ∨
        ∃ p, findChild (.map metadata) "name" = .str (p ++ "." ++ f.fromApiGroup) ∧
          findChild doc "metadata" =
            .map (mapSet metadata "name" (.str (p ++ "." ++ f.toApiGroup))) ∧
          (mapSet metadata "name" (.str (p ++ "." ++ f.toApiGroup))).map Prod.fst =
            metadata.map Prod.fst) ∧
      (findMapChild raw "spec" = none → findChild doc "spec" = findChild raw "spec") ∧
      (∀ spec, findMapChild raw "spec" = some spec →
        findChild doc "spec" = .map spec ∨
        (findChild (.map spec) "group" = .str f.fromApiGroup ∧
          findChild doc "spec" = .map (mapSet spec "group" (.str f.toApiGroup)) ∧
          (mapSet spec "group" (.str f.toApiGroup)).map Prod.fst = spec.map Prod.fst)) ∧
      ((∀ metadata p, findMapChild raw "metadata" = some metadata →
          findChild (.map metadata) "name" ≠ .str (p ++ "." ++ f.fromApiGroup)) →
        (∀ spec, findMapChild raw "spec" = some spec →
          findChild (.map spec) "group" ≠ .str f.fromApiGroup) →
        doc = raw) := by
  obtain ⟨doc, hstep, hkeys, hother, hmnone, hmsome, hsnone, hssome, _, hsame⟩ :=
    crd_slots f raw hc
  refine ⟨doc, hstep, hkeys, hother, hmnone, ?_, hsnone, ?_, hsame hfrom⟩
  · intro metadata hm
    rcases hmsome metadata hm with h | ⟨p, hname, hdoc⟩
    · exact Or.inl h
    · exact Or.inr ⟨p, hname, hdoc,
        keys_mapSet_of_present metadata "name" _ (by rw [hname]; simp)⟩
  · intro spec hs
    rcases hssome spec hs with h | ⟨_, hgroup, hdoc⟩
    · exact Or.inl h
    · exact Or.inr ⟨hgroup hfrom, hdoc,
        keys_mapSet_of_present spec "group" _ (by rw [hgroup hfrom]; simp)⟩

theorem crd_frame_witness :
    isCrd crdOtherValues ∧ scenarioFixer.fromApiGroup ≠ "" ∧
    step scenarioFixer crdOtherValues = some (crdOtherValues, none) := by
  obtain ⟨doc, h₁, _, _, _, _, _, _, h₂⟩ :=
    crd_frame scenarioFixer crdOtherValues (by decide) (by decide)
  refine ⟨by decide, by decide, ?_⟩
  rw [h₁, h₂ ?_ ?_]
  · intro metadata p hm he
    cases hm
    have hs : hasSuffix "widgets.Old.Example.Com" ("." ++ scenarioFixer.fromApiGroup) = true :=
      (hasSuffix_iff _ _).2 ⟨p, (Node.str.inj he).trans (String.append_assoc _ _ _)⟩
    exact absurd hs (by decide)
  · intro spec hs he
    cases hs
    cases he

/-! ## What `convertRole` can change -/

theorem rulesValue_of_not_seq (f : Fixer) (v : Node) (h : ∀ a, v ≠ .seq a) :
    rulesValue f v = v := by
  cases v <;> first | rfl | exact absurd rfl (h _)

theorem findSequenceChild_eq_none {node : Node} {name : String}
    (h : findSequenceChild node name = none) (a : List Node) :
    findChild node name ≠ .seq a := by
  intro ha
  simp [findSequenceChild, ha] at h

/-- C14. For a Role or ClusterRole document `step` succeeds without error and
changes nothing outside the `apiGroups` sequences of the elements of the
top-level `rules` sequence: the top-level keys are the same and every key
other than `rules` reads as before; without a `rules` sequence the document
is unchanged; otherwise `rules` is a sequence of the same length in which,
at every index, the element has every key other than `apiGroups` as before,
is the input element itself when that has no `apiGroups` sequence, and
otherwise has the rewritten `apiGroups`. -/
theorem role_frame (f : Fixer) (raw : Node) (hr : isRole raw) :
    ∃ doc, step f raw = some (doc, none) ∧
      (∃ o o', raw = .map o ∧ doc = .map o' ∧ o'.map Prod.fst = o.map Prod.fst) ∧
      (∀ k, k ≠ "rules" → findChild doc k = findChild raw k) ∧
      (findSequenceChild raw "rules" = none → doc = raw) ∧
      (∀ rules, findSequenceChild raw "rules" = some rules →
        ∃ rules', findChild doc "rules" = .seq rules' ∧ rules'.length = rules.length ∧
          ∀ (i : Nat) (rule : Node), rules[i]? = some rule →
            ∃ rule', rules'[i]? = some rule' ∧
              (∀ k, k ≠ "apiGroups" → findChild rule' k = findChild rule k) ∧
              (findSequenceChild rule "apiGroups" = none → rule' = rule) ∧
              (∀ apiGroups, findSequenceChild rule "apiGroups" = some apiGroups →
                rule' = setChild rule "apiGroups" (.seq (apiGroups.map (rewriteEntry f))) ∧
                findChild rule' "apiGroups" = .seq (apiGroups.map (rewriteEntry f)))) := by
  refine ⟨roleDoc f raw, step_role f raw hr, ?_, ?_, ?_, ?_⟩
  · obtain ⟨o, rfl⟩ := isRole_is_map raw hr
    obtain ⟨o', h₁, h₂⟩ := modChild_keys o "rules" (rulesValue f)
    exact ⟨o, o', rfl, h₁, h₂⟩
  · intro k hk
    exact findChild_roleDoc f raw k hk
  · intro h
    exact modChild_of_fixed _ _ _
      (rulesValue_of_not_seq f _ (findSequenceChild_eq_none h))
  · intro rules h
    have hc := findSequenceChild_eq_some h
    refine ⟨rules.map (convertRule f), ?_, by simp, ?_⟩
    · unfold roleDoc
      rw [findChild_modChild_self _ _ _ rfl, hc]
      have hfun : convertRule f = fun rule => modChild rule "apiGroups" (apiGroupsValue f) :=
        funext (convertRule_eq f)
      simp only [rulesValue, hfun]
    · intro i rule hi
      refine ⟨convertRule f rule, by simp [List.getElem?_map, hi], ?_, ?_, ?_⟩
      · intro k hk
        rw [convertRule_eq]
        exact findChild_modChild_ne _ _ _ _ hk
      · intro hnone
        exact convertRule_of_none f rule hnone
      · intro apiGroups hsome
        obtain ⟨o, rfl⟩ := findSequenceChild_is_map hsome
        refine ⟨convertRule_of_some f _ apiGroups hsome, ?_⟩
        rw [convertRule_of_some f _ apiGroups hsome, findChild_setChild_self]

theorem role_frame_witness :
    isRole roleSkipping ∧
    ∃ doc rules', step scenarioFixer roleSkipping = some (doc, none) ∧
      findChild doc "rules" = .seq rules' ∧
      rules'[0]? = some (.str "get") ∧
      rules'[1]? = some (.map [("apiGroups", .str "old.example.com")]) ∧
      rules'[2]? = some (.map [("apiGroups", .seq [.str "new.example.com"])]) := by
  obtain ⟨doc, h₁, _, _, _, h₂⟩ := role_frame scenarioFixer roleSkipping (by decide)
  obtain ⟨rules', h₃, _, h₄⟩ := h₂ _ rfl
  refine ⟨by decide, doc, rules', h₁, h₃, ?_, ?_, ?_⟩
  · obtain ⟨rule', h₅, _, h₆, _⟩ := h₄ 0 _ rfl
    rw [h₅, h₆ rfl]
    rfl
  · obtain ⟨rule', h₅, _, h₆, _⟩ := h₄ 1 _ rfl
    rw [h₅, h₆ rfl]
    rfl
  · obtain ⟨rule', h₅, _, _, h₆⟩ := h₄ 2 _ rfl
    rw [h₅, (h₆ [.str "old.example.com"] rfl).1]
    rfl

/-! ## The output stream when `run` fails -/

theorem encodeError_eq_none {encode : List Node → Node → EncodeResult} {written : List Node}
    {doc : Node} (h : encodeError encode written doc = none) :
    encode written doc = .accepted := by
  unfold encodeError at h
  split at h
  · assumption
  · cases h

theorem encodeError_eq_some {encode : List Node → Node → EncodeResult} {written : List Node}
    {doc : Node} {e : GoError} (h : encodeError encode written doc = some e) :
    ∃ flushed, encode written doc = .refused e flushed := by
  unfold encodeError at h
  split at h
  · cases h
  · rename_i err flushed he
    cases h
    exact ⟨flushed, he⟩

theorem wholeDocs_map_whole (docs : List Node) : wholeDocs (docs.map Chunk.whole) = docs := by
  induction docs with
  | nil => rfl
  | cons d rest ih => simp [wholeDocs, ih]

theorem wholeDocs_append_torn (docs : List Node) (doc : Node) (flushed : Nat) :
    wholeDocs (docs.map Chunk.whole ++ torn doc flushed) = docs := by
  induction docs with
  | nil =>
    unfold torn
    split <;> rfl
  | cons d rest ih => simpa [wholeDocs] using ih

/-- Document by document, `runStream` is `run`. -/
theorem run_eq_runStream (f : Fixer) (encode : List Node → Node → EncodeResult)
    (input : List DecodeResult) (written : List Node) :
    run f (encodeError encode) input written =
      ⟨wholeDocs (runStream f encode input written).sink,
        (runStream f encode input written).outcome⟩ := by
  induction input generalizing written with
  | nil => simp [run, runStream, wholeDocs_map_whole]
  | cons r rest ih =>
    cases r with
    | fail e => simp [run, runStream, wholeDocs_map_whole]
    | doc d =>
      obtain ⟨o, ho⟩ := step_total f d
      cases he : encode written o with
      | accepted =>
        have he' : encodeError encode written o = none := by simp [encodeError, he]
        simp only [run, runStream, ho, he, he']
        exact ih (written ++ [o])
      | refused e flushed =>
        have he' : encodeError encode written o = some e := by simp [encodeError, he]
        simp only [run, runStream, ho, he, he', wholeDocs_append_torn]

/-- Over an accepted run of documents the loop of `runStream` moves on. -/
theorem runStream_accepted (f : Fixer) (encode : List Node → Node → EncodeResult)
    (docs outs written : List Node) (tail : List DecodeResult)
    (h : Accepted f (encodeError encode) written docs outs) :
    runStream f encode (docs.map DecodeResult.doc ++ tail) written =
      runStream f encode tail (written ++ outs) := by
  induction docs generalizing outs written with
  | nil =>
    cases h.1
    simp
  | cons d rest ih =>
    obtain ⟨h₁, h₂⟩ := id h
    cases h₁ with
    | cons hs hrest =>
      rename_i o outs'
      obtain ⟨-, he, hacc⟩ := accepted_uncons f (encodeError encode) written rest outs' d o h
      have hrun := ih outs' (written ++ [o]) hacc
      simp only [List.map_cons, List.cons_append, runStream, hs, encodeError_eq_none he]
      simpa using hrun

theorem runStream_of_clean (f : Fixer) (encode : List Node → Node → EncodeResult)
    (docs outs : List Node) (h : Accepted f (encodeError encode) [] docs outs) :
    runStream f encode (docs.map DecodeResult.doc) [] = ⟨outs.map .whole, .success⟩ := by
  have := runStream_accepted f encode docs outs [] [] h
  simpa [runStream] using this

theorem runStream_of_decode_failure (f : Fixer) (encode : List Node → Node → EncodeResult)
    (docs outs : List Node) (e : GoError) (rest : List DecodeResult)
    (h : Accepted f (encodeError encode) [] docs outs) :
    runStream f encode (docs.map DecodeResult.doc ++ DecodeResult.fail e :: rest) [] =
      ⟨outs.map .whole, .failure e⟩ := by
  rw [runStream_accepted f encode docs outs [] _ h]
  simp [runStream]

theorem runStream_of_encode_failure (f : Fixer) (encode : List Node → Node → EncodeResult)
    (docs outs : List Node) (d o : Node) (e : GoError) (flushed : Nat)
    (rest : List DecodeResult)
    (h : Accepted f (encodeError encode) [] docs outs) (hs : step f d = some (o, none))
    (he : encode outs o = .refused e flushed) :
    runStream f encode (docs.map DecodeResult.doc ++ DecodeResult.doc d :: rest) [] =
      ⟨outs.map .whole ++ torn o flushed, .failure e⟩ := by
  rw [runStream_accepted f encode docs outs [] _ h]
  simp [runStream, hs, he]

/-- C15, as stated, fails.  The sink takes the first document and, of the
second, the 123 bytes of the first `Write`, and fails on the next `Write`:
`run` ends with that error while document 2 is emitted, and the output
stream holds document 1 and a part of document 2, which is more than the
results of `step` on documents 1..k-1. -/
theorem encode_failure_leaves_part_of_document :
    step scenarioFixer scenarioOther = some (scenarioOther, none) ∧
    step scenarioFixer scenarioCrd = some (scenarioCrdOut, none) ∧
    tornSink [] scenarioOther = .accepted ∧
    tornSink [scenarioOther] scenarioCrdOut = .refused "short write" 123 ∧
    runStream scenarioFixer tornSink
      [DecodeResult.doc scenarioOther, DecodeResult.doc scenarioCrd] [] =
      ⟨[.whole scenarioOther, .part scenarioCrdOut 123], .failure "short write"⟩ ∧
    [Chunk.whole scenarioOther, Chunk.part scenarioCrdOut 123] ≠
      [scenarioOther].map Chunk.whole :=
  ⟨rfl, rfl, rfl, rfl, rfl, fun h => absurd (congrArg List.length h) (by decide)⟩

/-- C15, amended.  When `run` ends with the error `e`, the stream is a prefix
of documents, then the failing item, then a rest that is never looked at.
The documents that are in the output stream in full are exactly the results
of `step` on the prefix, one per document, in the order read, each accepted
by the sink.  When the failing item is a decode failure, the stream holds
nothing else.  When it is a document whose `Encode` fails, the stream holds
after them what the sink took of that document before the failure, which
can be a part of it, and nothing of any later document. -/
theorem failure_keeps_written_prefix (f : Fixer)
    (encode : List Node → Node → EncodeResult)
    (input : List DecodeResult) (e : GoError)
    (h : (runStream f encode input []).outcome = .failure e) :
    ∃ docs outs failing rest,
      input = docs.map DecodeResult.doc ++ failing :: rest ∧
      outs.length = docs.length ∧
      List.Forall₂ (fun d o => step f d = some (o, none)) docs outs ∧
      (∀ (i : Nat) (o : Node), outs[i]? = some o → encode (outs.take i) o = .accepted) ∧
      wholeDocs (runStream f encode input []).sink = outs ∧
      ((failing = DecodeResult.fail e ∧
          (runStream f encode input []).sink = outs.map .whole) ∨
        ∃ d o flushed, failing = DecodeResult.doc d ∧ step f d = some (o, none) ∧
          encode outs o = .refused e flushed ∧
          (runStream f encode input []).sink = outs.map .whole ++ torn o flushed) ∧
      ∀ rest', runStream f encode (docs.map DecodeResult.doc ++ failing :: rest') [] =
        runStream f encode input [] := by
  obtain ⟨docs, outs, hacc, hcase⟩ := run_trace f (encodeError encode) input []
  simp only [List.nil_append] at hcase
  have hacc' : ∀ (i : Nat) (o : Node), outs[i]? = some o →
      encode (outs.take i) o = .accepted := by
    intro i o hi
    exact encodeError_eq_none (by simpa using hacc.2 i o hi)
  rcases hcase with hi | ⟨e', rest, hi⟩ | ⟨d, o, e', rest, hi, hs, he⟩
  · rw [hi, runStream_of_clean f encode docs outs hacc] at h
    cases h
  · have hrun := runStream_of_decode_failure f encode docs outs e' rest hacc
    rw [hi, hrun] at h
    cases h
    refine ⟨docs, outs, DecodeResult.fail e, rest, hi, hacc.1.length_eq.symm, hacc.1, hacc',
      by rw [hi, hrun]; exact wholeDocs_map_whole outs,
      Or.inl ⟨rfl, by rw [hi, hrun]⟩, ?_⟩
    intro rest'
    rw [hi, hrun]
    exact runStream_of_decode_failure f encode docs outs e rest' hacc
  · obtain ⟨flushed, hf⟩ := encodeError_eq_some he
    have hrun := runStream_of_encode_failure f encode docs outs d o e' flushed rest hacc hs hf
    rw [hi, hrun] at h
    cases h
    refine ⟨docs, outs, DecodeResult.doc d, rest, hi, hacc.1.length_eq.symm, hacc.1, hacc',
      by rw [hi, hrun]; exact wholeDocs_append_torn outs o flushed,
      Or.inr ⟨d, o, flushed, rfl, hs, hf, by rw [hi, hrun]⟩, ?_⟩
    intro rest'
    rw [hi, hrun]
    exact runStream_of_encode_failure f encode docs outs d o e flushed rest' hacc hs hf

theorem failure_keeps_written_prefix_witness :
    (runStream scenarioFixer tornSink
      [DecodeResult.doc scenarioOther, DecodeResult.doc scenarioCrd,
        DecodeResult.doc scenarioGeneric] []).outcome = .failure "short write" ∧
    ∃ docs outs failing rest,
      [DecodeResult.doc scenarioOther, DecodeResult.doc scenarioCrd,
        DecodeResult.doc scenarioGeneric] = docs.map DecodeResult.doc ++ failing :: rest ∧
      List.Forall₂ (fun d o => step scenarioFixer d = some (o, none)) docs outs ∧
      wholeDocs (runStream scenarioFixer tornSink
        [DecodeResult.doc scenarioOther, DecodeResult.doc scenarioCrd,
          DecodeResult.doc scenarioGeneric] []).sink = outs ∧
      wholeDocs (runStream scenarioFixer tornSink
        [DecodeResult.doc scenarioOther, DecodeResult.doc scenarioCrd,
          DecodeResult.doc scenarioGeneric] []).sink = [scenarioOther] := by
  obtain ⟨docs, outs, failing, rest, h₁, _, h₂, _, h₃, _⟩ :=
    failure_keeps_written_prefix scenarioFixer tornSink
      [DecodeResult.doc scenarioOther, DecodeResult.doc scenarioCrd,
        DecodeResult.doc scenarioGeneric] "short write" rfl
  exact ⟨rfl, docs, outs, failing, rest, h₁, h₂, h₃, rfl⟩

/-- C16. `step` never panics, for every document and every pair of groups,
the empty string included.  When the generic branch is taken, `apiVersion`
is not empty and the document is a string-keyed mapping, so the type
assertion of line 52 holds; under `HasPrefix` the slice of line 51 is within
bounds, and under `HasSuffix` the slice of line 67 is within bounds; so
`convertCrd` does not panic either. -/
theorem step_never_panics (f : Fixer) (raw : Node) :
    (∃ doc, step f raw = some (doc, none)) ∧
    (¬ isCrd raw → ¬ isRole raw →
      hasPrefix (findTextChild raw "apiVersion") (f.fromApiGroup ++ "/") = true →
      findTextChild raw "apiVersion" ≠ "" ∧
      findChild raw "apiVersion" = .str (findTextChild raw "apiVersion") ∧
      ∃ o, raw = .map o) ∧
    (∀ s, hasPrefix s (f.fromApiGroup ++ "/") = true →
      len (f.fromApiGroup ++ "/") ≤ len s ∧
      ∃ suffix, sliceFrom s (len (f.fromApiGroup ++ "/")) = some suffix) ∧
    (∀ name, hasSuffix name ("." ++ f.fromApiGroup) = true →
      0 ≤ (len name : Int) - (len ("." ++ f.fromApiGroup) : Int) ∧
      (len name : Int) - (len ("." ++ f.fromApiGroup) : Int) ≤ (len name : Int) ∧
      ∃ head, sliceTo name ((len name : Int) - (len ("." ++ f.fromApiGroup) : Int)) =
        some head) ∧
    (∃ doc, convertCrd f raw = some (doc, none)) := by
  refine ⟨step_total f raw, ?_, ?_, ?_, convertCrd_total f raw⟩
  · intro _ _ hp
    obtain ⟨t, ht⟩ := (hasPrefix_iff _ _).1 hp
    have hne : findTextChild raw "apiVersion" ≠ "" := by
      rw [ht]
      intro he
      have := congrArg len he
      simp [len] at this
    have hch := findTextChild_ne_empty hne
    exact ⟨hne, hch, findChild_ne_null_is_map raw "apiVersion" (by rw [hch]; simp)⟩
  · intro s hp
    have hle : len (f.fromApiGroup ++ "/") ≤ len s := by
      simp only [hasPrefix, Bool.and_eq_true, decide_eq_true_eq] at hp
      exact hp.1
    exact ⟨hle, ⟨⟨s.data.drop (len (f.fromApiGroup ++ "/"))⟩, by simp [sliceFrom, hle]⟩⟩
  · intro name hs
    have hle : len ("." ++ f.fromApiGroup) ≤ len name := by
      simp only [hasSuffix, Bool.and_eq_true, decide_eq_true_eq] at hs
      exact hs.1
    have h₁ : 0 ≤ (len name : Int) - (len ("." ++ f.fromApiGroup) : Int) := by omega
    have h₂ : (len name : Int) - (len ("." ++ f.fromApiGroup) : Int) ≤ (len name : Int) := by
      omega
    exact ⟨h₁, h₂,
      ⟨⟨name.data.take ((len name : Int) - (len ("." ++ f.fromApiGroup) : Int)).toNat⟩,
        by simp only [sliceTo, h₁, h₂, and_self, if_true]⟩⟩

/-! ## Equal groups -/

theorem rewriteEntry_same (g : String) (entry : Node) : rewriteEntry ⟨g, g⟩ entry = entry := by
  cases entry <;> try rfl
  rename_i s
  by_cases h : s = g <;> simp [rewriteEntry, h]

theorem apiGroupsValue_same (g : String) (v : Node) : apiGroupsValue ⟨g, g⟩ v = v := by
  cases v <;> try rfl
  rename_i apiGroups
  simp only [apiGroupsValue, Node.seq.injEq]
  conv_rhs => rw [← List.map_id apiGroups]
  exact List.map_congr_left (fun entry _ => rewriteEntry_same g entry)

theorem rulesValue_same (g : String) (v : Node) : rulesValue ⟨g, g⟩ v = v := by
  cases v <;> try rfl
  rename_i rules
  simp only [rulesValue, Node.seq.injEq]
  conv_rhs => rw [← List.map_id rules]
  exact List.map_congr_left
    (fun rule _ => modChild_of_fixed rule _ _ (apiGroupsValue_same g _))

theorem metadataValue_same (g : String) (v : Node) : metadataValue ⟨g, g⟩ v = v := by
  cases v <;> try rfl
  rename_i metadata
  cases hs : hasSuffix (findTextChild (.map metadata) "name") ("." ++ g) with
  | false => simp [metadataValue, hs]
  | true =>
    obtain ⟨p, hp, hch⟩ := findChild_of_suffix _ _ _ hs
    simp only [metadataValue, hs, if_true, Node.map.injEq]
    rw [hp, stripSuffix_append, ← hch]
    exact mapSet_findChild metadata "name" (by rw [hch]; simp)

theorem specValue_same (g : String) (v : Node)
    (h : ∀ spec, v = .map spec → findTextChild (.map spec) "group" = g →
      findChild (.map spec) "group" = .str g) :
    specValue ⟨g, g⟩ v = v := by
  cases v <;> try rfl
  rename_i spec
  by_cases hg : findTextChild (.map spec) "group" = g
  · have hch := h spec rfl hg
    simp only [specValue, hg, if_true, Node.map.injEq]
    rw [← hch]
    exact mapSet_findChild spec "group" (by rw [hch]; simp)
  · simp [specValue, hg]

theorem findTextChild_of_not_str (node : Node) (k : String)
    (h : ∀ s, findChild node k ≠ .str s) : findTextChild node k = "" := by
  unfold findTextChild
  split
  · rename_i s hs; exact absurd hs (h s)
  · rfl

/-- With equal groups `step` returns its input, unless the group is empty
and it fills in a `spec.group` that was not a string. -/
theorem step_same_groups (g : String) (raw : Node)
    (h : ∀ spec, isCrd raw → findMapChild raw "spec" = some spec →
      findTextChild (.map spec) "group" = g → findChild (.map spec) "group" = .str g) :
    step ⟨g, g⟩ raw = some (raw, none) := by
  by_cases hc : isCrd raw
  · rw [step_crd _ raw hc]
    have h₁ : modChild raw "metadata" (metadataValue ⟨g, g⟩) = raw :=
      modChild_of_fixed _ _ _ (metadataValue_same g _)
    have h₂ : modChild raw "spec" (specValue ⟨g, g⟩) = raw := by
      apply modChild_of_fixed
      apply specValue_same
      intro spec hv
      exact h spec hc (by simp [findMapChild, hv])
    unfold crdDoc
    rw [h₁, h₂]
  · by_cases hr : isRole raw
    · rw [step_role _ raw hr]
      unfold roleDoc
      rw [modChild_of_fixed _ _ _ (rulesValue_same g _)]
    · cases hp : hasPrefix (findTextChild raw "apiVersion") (g ++ "/") with
      | false => exact step_of_no_rule _ raw hc hr hp
      | true =>
        obtain ⟨t, ht⟩ := (hasPrefix_iff _ _).1 hp
        obtain ⟨o, rfl, hs⟩ := step_generic ⟨g, g⟩ _ t hc hr ht
        rw [hs]
        have hne : findTextChild (.map o) "apiVersion" ≠ "" := by
          rw [ht]
          intro he
          have := congrArg len he
          simp [len] at this
        have hch := findTextChild_ne_empty hne
        rw [ht] at hch
        simp only [Option.some.injEq, Prod.mk.injEq, and_true, Node.map.injEq]
        rw [← hch]
        exact mapSet_findChild o "apiVersion" (by rw [hch]; simp)

/-- C17, as stated, fails.  With `fromApiGroup = toApiGroup = ""`, a CRD whose
`spec` mapping has no `group` comes out of `step` with `spec.group` set to
`""`: the missing `group` reads as `""`, which equals `fromApiGroup`. -/
theorem same_empty_groups_add_group :
    emptyFixer.fromApiGroup = emptyFixer.toApiGroup ∧
    step emptyFixer crdNoGroup = some (crdNoGroupEmptied, none) ∧
    crdNoGroupEmptied ≠ crdNoGroup :=
  ⟨rfl, rfl, fun h => absurd
    (congrArg (fun d =>
      match findChild (findChild d "spec") "group" with
      | .str _ => true
      | _ => false) h)
    (by decide)⟩

/-- C17, amended.  With `fromApiGroup = toApiGroup = g`, `step` returns a
document equal to its input for every document and every `g`, with one
exception: when `g` is empty and the document is a CRD whose `spec` mapping
has a `group` that is not a string (absent, `null` or of another type),
`step` sets `spec.group` to `""` and the result differs from the input. -/
theorem same_groups_identity (g : String) (raw : Node) :
    (g ≠ "" → step ⟨g, g⟩ raw = some (raw, none)) ∧
    (step ⟨g, g⟩ raw = some (raw, none) ↔
      ¬ (g = "" ∧ isCrd raw ∧ ∃ spec, findMapChild raw "spec" = some spec ∧
        ∀ s, findChild (.map spec) "group" ≠ .str s)) := by
  constructor
  · intro hg
    apply step_same_groups
    intro spec _ _ ht
    exact findChild_of_text_eq _ _ _ hg ht
  · constructor
    · rintro hs ⟨hg, hc, spec, hspec, hnot⟩
      subst hg
      rw [step_crd _ raw hc] at hs
      have hdoc : crdDoc ⟨"", ""⟩ raw = raw := congrArg Prod.fst (Option.some.inj hs)
      have h₁ := findChild_crdDoc_spec ⟨"", ""⟩ raw
      rw [hdoc, findMapChild_eq_some hspec] at h₁
      have ht : findTextChild (.map spec) "group" = "" :=
        findTextChild_of_not_str _ _ hnot
      simp only [specValue, ht, if_true, Node.map.injEq] at h₁
      have h₂ := congrArg (fun m => findChild (.map m) "group") h₁
      simp only [findChild_mapSet_self] at h₂
      exact hnot "" h₂
    · intro hnot
      apply step_same_groups
      intro spec hc hspec ht
      by_cases hg : g = ""
      · by_contra hch
        apply hnot
        refine ⟨hg, hc, spec, hspec, ?_⟩
        intro s hs
        apply hch
        have : findTextChild (.map spec) "group" = s := by simp [findTextChild, hs]
        rw [hs, ← this, ht]
      · exact findChild_of_text_eq _ _ _ hg ht

/-! ## `findChild` as a key lookup -/

theorem findChild_eq_directLookup (node : Node) (name : String) :
    findChild node name = directLookup node name := by
  cases node <;> try rfl
  rename_i o
  induction o with
  | nil => rfl
  | cons kv rest ih =>
    obtain ⟨k, v⟩ := kv
    by_cases h : k = name
    · subst h
      simp [findChild, directLookup, List.lookup]
    · have h' : (name == k) = false := by
        simp only [beq_eq_false_iff_ne, ne_eq]
        exact fun e => h e.symm
      simp only [findChild, directLookup, List.find?, h, decide_False, List.lookup, h'] at ih ⊢
      exact ih

theorem findChild_of_mem (o : List (String × Node)) (name : String) (v : Node)
    (hnd : (o.map Prod.fst).Nodup) (hmem : (name, v) ∈ o) :
    findChild (.map o) name = v := by
  induction o with
  | nil => cases hmem
  | cons kv rest ih =>
    obtain ⟨k, w⟩ := kv
    simp only [List.map_cons, List.nodup_cons] at hnd
    rcases List.mem_cons.1 hmem with heq | hrest
    · cases heq
      simp [findChild]
    · have hk : k ≠ name := by
        intro e
        subst e
        exact hnd.1 (List.mem_map.2 ⟨(k, v), hrest, rfl⟩)
      have := ih hnd.2 hrest
      simpa [findChild, hk] using this

theorem findChild_of_not_mem (o : List (String × Node)) (name : String)
    (h : name ∉ o.map Prod.fst) : findChild (.map o) name = .null := by
  induction o with
  | nil => rfl
  | cons kv rest ih =>
    obtain ⟨k, w⟩ := kv
    simp only [List.map_cons, List.mem_cons, not_or] at h
    have hk : k ≠ name := fun e => h.1 e.symm
    have := ih h.2
    simpa [findChild, hk] using this

theorem findChild_mem_or_null (o : List (String × Node)) (name : String) :
    (name, findChild (.map o) name) ∈ o ∨ name ∉ o.map Prod.fst := by
  induction o with
  | nil => exact Or.inr (by simp)
  | cons kv rest ih =>
    obtain ⟨k, w⟩ := kv
    by_cases hk : k = name
    · subst hk
      exact Or.inl (by simp [findChild])
    · have hfc : findChild (.map ((k, w) :: rest)) name = findChild (.map rest) name := by
        simp [findChild, hk]
      rcases ih with h | h
      · exact Or.inl (by rw [hfc]; exact List.mem_cons_of_mem _ h)
      · exact Or.inr (by
          simp only [List.map_cons, List.mem_cons, not_or]
          exact ⟨fun e => hk e.symm, h⟩)

/-- With unique keys, the result of `findChild` does not depend on the order
in which the entries are enumerated. -/
theorem findChild_perm (o o' : List (String × Node)) (name : String)
    (hnd : (o.map Prod.fst).Nodup) (hp : o.Perm o') :
    findChild (.map o') name = findChild (.map o) name := by
  have hnd' : (o'.map Prod.fst).Nodup := (hp.map Prod.fst).nodup_iff.1 hnd
  rcases findChild_mem_or_null o name with h | h
  · exact findChild_of_mem o' name _ hnd' (hp.subset h)
  · rw [findChild_of_not_mem o name h]
    apply findChild_of_not_mem
    intro hmem
    exact h ((hp.map Prod.fst).symm.subset hmem)

/-! ## `step` on the same document in two enumeration orders -/

theorem same_findChild {d d' : Node} (h : SameDocument d d') (k : String) :
    SameDocument (findChild d k) (findChild d' k) := by
  cases h with
  | map o o' _ _ _ hv => exact hv k
  | null => exact SameDocument.null
  | str s => exact SameDocument.null
  | bool b => exact SameDocument.null
  | int i => exact SameDocument.null
  | float bits => exact SameDocument.null
  | seq xs ys _ _ => exact SameDocument.null
  | anymap es es' _ => exact SameDocument.null

theorem same_str_left {s : String} {d : Node} (h : SameDocument (.str s) d) : d = .str s := by
  cases h; rfl

theorem same_str_right {s : String} {d : Node} (h : SameDocument d (.str s)) : d = .str s := by
  cases h; rfl

theorem same_null_iff {d d' : Node} (h : SameDocument d d') : d = .null ↔ d' = .null := by
  cases h <;> simp

theorem same_findTextChild {d d' : Node} (h : SameDocument d d') (k : String) :
    findTextChild d k = findTextChild d' k := by
  have hc := same_findChild h k
  unfold findTextChild
  split
  · rename_i s hs
    rw [hs] at hc
    rw [same_str_left hc]
  · rename_i hns
    split
    · rename_i s hs
      rw [hs] at hc
      exact absurd (same_str_right hc) (hns s)
    · rfl

theorem same_isCrd {d d' : Node} (h : SameDocument d d') : isCrd d ↔ isCrd d' := by
  unfold isCrd
  rw [same_findTextChild h "apiVersion", same_findTextChild h "kind"]

theorem same_isRole {d d' : Node} (h : SameDocument d d') : isRole d ↔ isRole d' := by
  unfold isRole
  rw [same_findTextChild h "apiVersion", same_findTextChild h "kind"]

theorem mem_keys_mapSet (o : List (String × Node)) (k k' : String) (v : Node) :
    k' ∈ (mapSet o k v).map Prod.fst ↔ k' = k ∨ k' ∈ o.map Prod.fst := by
  induction o with
  | nil => simp [mapSet]
  | cons kv rest ih =>
    obtain ⟨k₁, v₁⟩ := kv
    by_cases h : k₁ = k
    · subst h
      simp [mapSet]
    · simp only [mapSet, h, if_false, List.map_cons, List.mem_cons, ih]
      constructor
      · rintro (h₁ | h₁ | h₁)
        · exact Or.inr (Or.inl h₁)
        · exact Or.inl h₁
        · exact Or.inr (Or.inr h₁)
      · rintro (h₁ | h₁ | h₁)
        · exact Or.inr (Or.inl h₁)
        · exact Or.inl h₁
        · exact Or.inr (Or.inr h₁)

theorem nodup_keys_mapSet (o : List (String × Node)) (k : String) (v : Node)
    (h : (o.map Prod.fst).Nodup) : ((mapSet o k v).map Prod.fst).Nodup := by
  induction o with
  | nil => simp [mapSet]
  | cons kv rest ih =>
    obtain ⟨k₁, v₁⟩ := kv
    simp only [List.map_cons, List.nodup_cons] at h
    by_cases h₁ : k₁ = k
    · subst h₁
      simpa [mapSet] using h
    · simp only [mapSet, h₁, if_false, List.map_cons, List.nodup_cons]
      refine ⟨?_, ih h.2⟩
      intro hmem
      rcases (mem_keys_mapSet rest k k₁ v).1 hmem with h₂ | h₂
      · exact h₁ h₂
      · exact h.1 h₂

/-- Assigning the same document to the same key of the same mapping gives
the same mapping. -/
theorem same_mapSet {o o' : List (String × Node)} {v v' : Node}
    (h : SameDocument (.map o) (.map o')) (hv : SameDocument v v') (k : String) :
    SameDocument (.map (mapSet o k v)) (.map (mapSet o' k v')) := by
  cases h with
  | map _ _ hnd hnd' hkeys hvals =>
    refine SameDocument.map _ _ (nodup_keys_mapSet o k v hnd)
      (nodup_keys_mapSet o' k v' hnd') ?_ ?_
    · intro k'
      rw [mem_keys_mapSet, mem_keys_mapSet, hkeys k']
    · intro k'
      by_cases hk : k' = k
      · subst hk
        rw [findChild_mapSet_self, findChild_mapSet_self]
        exact hv
      · rw [findChild_mapSet_ne _ _ _ _ hk, findChild_mapSet_ne _ _ _ _ hk]
        exact hvals k'

theorem same_modChild {d d' : Node} (h : SameDocument d d') (k : String) (g : Node → Node)
    (hg : ∀ v v', SameDocument v v' → SameDocument (g v) (g v')) :
    SameDocument (modChild d k g) (modChild d' k g) := by
  have hc := same_findChild h k
  by_cases hn : findChild d k = .null
  · rw [modChild_of_null d k g hn, modChild_of_null d' k g ((same_null_iff hc).1 hn)]
    exact h
  · have hn' : findChild d' k ≠ .null := fun e => hn ((same_null_iff hc).2 e)
    obtain ⟨o, rfl⟩ := findChild_ne_null_is_map d k hn
    obtain ⟨o', rfl⟩ := findChild_ne_null_is_map d' k hn'
    rw [modChild_of_ne_null _ k g hn, modChild_of_ne_null _ k g hn']
    exact same_mapSet h (hg _ _ hc) k

theorem same_metadataValue (f : Fixer) (v v' : Node) (h : SameDocument v v') :
    SameDocument (metadataValue f v) (metadataValue f v') := by
  cases h with
  | map o o' hnd hnd' hkeys hvals =>
    have hsame : SameDocument (.map o) (.map o') := SameDocument.map o o' hnd hnd' hkeys hvals
    have ht := same_findTextChild hsame "name"
    simp only [metadataValue]
    rw [← ht]
    split
    · exact same_mapSet hsame (SameDocument.str _) "name"
    · exact hsame
  | null => exact SameDocument.null
  | str s => exact SameDocument.str s
  | bool b => exact SameDocument.bool b
  | int i => exact SameDocument.int i
  | float bits => exact SameDocument.float bits
  | seq xs ys h₁ h₂ => exact SameDocument.seq xs ys h₁ h₂
  | anymap es es' h₁ => exact SameDocument.anymap es es' h₁

theorem same_specValue (f : Fixer) (v v' : Node) (h : SameDocument v v') :
    SameDocument (specValue f v) (specValue f v') := by
  cases h with
  | map o o' hnd hnd' hkeys hvals =>
    have hsame : SameDocument (.map o) (.map o') := SameDocument.map o o' hnd hnd' hkeys hvals
    have ht := same_findTextChild hsame "group"
    simp only [specValue]
    rw [← ht]
    split
    · exact same_mapSet hsame (SameDocument.str _) "group"
    · exact hsame
  | null => exact SameDocument.null
  | str s => exact SameDocument.str s
  | bool b => exact SameDocument.bool b
  | int i => exact SameDocument.int i
  | float bits => exact SameDocument.float bits
  | seq xs ys h₁ h₂ => exact SameDocument.seq xs ys h₁ h₂
  | anymap es es' h₁ => exact SameDocument.anymap es es' h₁

theorem same_rewriteEntry (f : Fixer) (v v' : Node) (h : SameDocument v v') :
    SameDocument (rewriteEntry f v) (rewriteEntry f v') := by
  cases h with
  | str s =>
    simp only [rewriteEntry]
    split
    · exact SameDocument.str _
    · exact SameDocument.str _
  | null => exact SameDocument.null
  | bool b => exact SameDocument.bool b
  | int i => exact SameDocument.int i
  | float bits => exact SameDocument.float bits
  | seq xs ys h₁ h₂ => exact SameDocument.seq xs ys h₁ h₂
  | map o o' h₁ h₂ h₃ h₄ => exact SameDocument.map o o' h₁ h₂ h₃ h₄
  | anymap es es' h₁ => exact SameDocument.anymap es es' h₁

theorem same_seq_map (g : Node → Node) (xs ys : List Node)
    (hg : ∀ v v', SameDocument v v' → SameDocument (g v) (g v'))
    (h : SameDocument (.seq xs) (.seq ys)) :
    SameDocument (.seq (xs.map g)) (.seq (ys.map g)) := by
  cases h with
  | seq _ _ hlen hall =>
    refine SameDocument.seq _ _ (by simp [hlen]) ?_
    intro i x y hx hy
    rw [List.getElem?_map] at hx hy
    cases hxi : xs[i]? with
    | none => rw [hxi] at hx; cases hx
    | some x₀ =>
      cases hyi : ys[i]? with
      | none => rw [hyi] at hy; cases hy
      | some y₀ =>
        rw [hxi] at hx
        rw [hyi] at hy
        cases hx
        cases hy
        exact hg _ _ (hall i x₀ y₀ hxi hyi)

theorem same_apiGroupsValue (f : Fixer) (v v' : Node) (h : SameDocument v v') :
    SameDocument (apiGroupsValue f v) (apiGroupsValue f v') := by
  cases h with
  | seq xs ys h₁ h₂ =>
    exact same_seq_map _ xs ys (same_rewriteEntry f) (SameDocument.seq xs ys h₁ h₂)
  | null => exact SameDocument.null
  | str s => exact SameDocument.str s
  | bool b => exact SameDocument.bool b
  | int i => exact SameDocument.int i
  | float bits => exact SameDocument.float bits
  | map o o' h₁ h₂ h₃ h₄ => exact SameDocument.map o o' h₁ h₂ h₃ h₄
  | anymap es es' h₁ => exact SameDocument.anymap es es' h₁

theorem same_rulesValue (f : Fixer) (v v' : Node) (h : SameDocument v v') :
    SameDocument (rulesValue f v) (rulesValue f v') := by
  cases h with
  | seq xs ys h₁ h₂ =>
    exact same_seq_map _ xs ys
      (fun a b hab => same_modChild hab "apiGroups" _ (same_apiGroupsValue f))
      (SameDocument.seq xs ys h₁ h₂)
  | null => exact SameDocument.null
  | str s => exact SameDocument.str s
  | bool b => exact SameDocument.bool b
  | int i => exact SameDocument.int i
  | float bits => exact SameDocument.float bits
  | map o o' h₁ h₂ h₃ h₄ => exact SameDocument.map o o' h₁ h₂ h₃ h₄
  | anymap es es' h₁ => exact SameDocument.anymap es es' h₁

/-- The same document in two enumeration orders goes through `step` to the
same document in two enumeration orders. -/
theorem same_step (f : Fixer) (d d' : Node) (h : SameDocument d d') :
    ∃ r r', step f d = some (r, none) ∧ step f d' = some (r', none) ∧ SameDocument r r' := by
  by_cases hc : isCrd d
  · have hc' := (same_isCrd h).1 hc
    refine ⟨crdDoc f d, crdDoc f d', step_crd f d hc, step_crd f d' hc', ?_⟩
    exact same_modChild (same_modChild h "metadata" _ (same_metadataValue f)) "spec" _
      (same_specValue f)
  · have hc' : ¬ isCrd d' := fun e => hc ((same_isCrd h).2 e)
    by_cases hr : isRole d
    · have hr' := (same_isRole h).1 hr
      exact ⟨roleDoc f d, roleDoc f d', step_role f d hr, step_role f d' hr',
        same_modChild h "rules" _ (same_rulesValue f)⟩
    · have hr' : ¬ isRole d' := fun e => hr ((same_isRole h).2 e)
      have ht := same_findTextChild h "apiVersion"
      cases hp : hasPrefix (findTextChild d "apiVersion") (f.fromApiGroup ++ "/") with
      | false =>
        exact ⟨d, d', step_of_no_rule f d hc hr hp,
          step_of_no_rule f d' hc' hr' (by rw [← ht]; exact hp), h⟩
      | true =>
        obtain ⟨t, hv⟩ := (hasPrefix_iff _ _).1 hp
        obtain ⟨o, rfl, hs⟩ := step_generic f d t hc hr hv
        obtain ⟨o', rfl, hs'⟩ := step_generic f d' t hc' hr' (by rw [← ht]; exact hv)
        exact ⟨_, _, hs, hs', same_mapSet h (SameDocument.str _) "apiVersion"⟩

/-- Enumerating the entries of a mapping with unique keys in another order
gives the same document. -/
theorem same_of_perm (o o' : List (String × Node)) (hnd : (o.map Prod.fst).Nodup)
    (hp : o.Perm o') (hvals : ∀ k, SameDocument (findChild (.map o) k) (findChild (.map o) k)) :
    SameDocument (.map o) (.map o') := by
  refine SameDocument.map o o' hnd ((hp.map Prod.fst).nodup_iff.1 hnd) ?_ ?_
  · intro k
    exact (hp.map Prod.fst).mem_iff
  · intro k
    rw [findChild_perm o o' k hnd hp]
    exact hvals k

theorem same_self_of_strs (o : List (String × Node))
    (h : ∀ kv ∈ o, ∃ s, kv.2 = Node.str s) (k : String) :
    SameDocument (findChild (.map o) k) (findChild (.map o) k) := by
  rcases findChild_mem_or_null o k with hm | hm
  · obtain ⟨s, hs⟩ := h _ hm
    simp only at hs
    rw [hs]
    exact SameDocument.str s
  · rw [findChild_of_not_mem o k hm]
    exact SameDocument.null

/-- Scenario 3 read in two enumeration orders: the two results of `step` are
again one document in two orders. -/
theorem same_step_scenarioGeneric :
    SameDocument scenarioGeneric scenarioGenericReordered ∧
    step scenarioFixer scenarioGeneric =
      some (.map [("apiVersion", .str "new.example.com/v1"), ("kind", .str "Widget")], none) ∧
    step scenarioFixer scenarioGenericReordered =
      some (.map [("kind", .str "Widget"), ("apiVersion", .str "new.example.com/v1")], none) ∧
    SameDocument
      (.map [("apiVersion", .str "new.example.com/v1"), ("kind", .str "Widget")])
      (.map [("kind", .str "Widget"), ("apiVersion", .str "new.example.com/v1")]) := by
  have h₁ : SameDocument scenarioGeneric scenarioGenericReordered := by
    apply same_of_perm _ _ (by decide) (List.Perm.swap _ _ _)
    apply same_self_of_strs
    intro kv hkv
    simp only [List.mem_cons, List.mem_singleton, List.not_mem_nil, or_false] at hkv
    rcases hkv with rfl | rfl
    · exact ⟨_, rfl⟩
    · exact ⟨_, rfl⟩
  obtain ⟨r, r', h₂, h₃, h₄⟩ := same_step scenarioFixer _ _ h₁
  have e₂ : step scenarioFixer scenarioGeneric =
      some (.map [("apiVersion", .str "new.example.com/v1"), ("kind", .str "Widget")], none) :=
    rfl
  have e₃ : step scenarioFixer scenarioGenericReordered =
      some (.map [("kind", .str "Widget"), ("apiVersion", .str "new.example.com/v1")], none) :=
    rfl
  rw [e₂] at h₂
  rw [e₃] at h₃
  cases h₂
  cases h₃
  exact ⟨h₁, e₂, e₃, h₄⟩

/-- C18. `findChild` is the direct key lookup: it returns the value bound to
`name` when the node is a string-keyed mapping with that key, and `nil` when
the key is absent or the node is not such a mapping.  With unique keys the
result is the same for every order in which the entries are enumerated, and
`step` is a function of the document and the two groups: the same document
in two enumeration orders (at any depth) is rewritten to the same document
in two enumeration orders, without panic or error. -/
theorem findChild_is_key_lookup (node : Node) (name : String) :
    findChild node name = directLookup node name ∧
    (∀ o v, node = .map o → (o.map Prod.fst).Nodup → (name, v) ∈ o →
      findChild node name = v) ∧
    (∀ o, node = .map o → name ∉ o.map Prod.fst → findChild node name = .null) ∧
    ((∀ o, node ≠ .map o) → findChild node name = .null) ∧
    (∀ o o', node = .map o → (o.map Prod.fst).Nodup → o.Perm o' →
      findChild (.map o') name = findChild node name) ∧
    (∀ o o', (o.map Prod.fst).Nodup → o.Perm o' →
      (∀ k, SameDocument (findChild (.map o) k) (findChild (.map o) k)) →
      SameDocument (.map o) (.map o')) ∧
    (∀ (f : Fixer) (d d' : Node), SameDocument d d' →
      ∃ r r', step f d = some (r, none) ∧ step f d' = some (r', none) ∧
        SameDocument r r') := by
  refine ⟨findChild_eq_directLookup node name, ?_, ?_, findChild_of_not_map node name, ?_,
    same_of_perm, same_step⟩
  · rintro o v rfl hnd hmem
    exact findChild_of_mem o name v hnd hmem
  · rintro o rfl h
    exact findChild_of_not_mem o name h
  · rintro o o' rfl hnd hp
    exact findChild_perm o o' name hnd hp

end Fixcrd
